import Mathlib

/-!
# Verification of the `permutation_based_crypto` byte-I/O and Farfalle layers

This file is a shallow embedding, in Lean 4, of the Rust sources of the
`permutation_based_crypto` repository:

* `crypto-permutation/src/buffer.rs` (the `BufMut` byte buffer),
* `crypto-permutation/src/io/util.rs` (`check_write_size`),
* `crypto-permutation/src/io/le_uint_slice_writer.rs` (the little-endian
  word-slice copy/xor writers, instantiated at `u32`),
* `permutation-xoodoo/src/permutation.rs` (the Xoodoo permutation),
* `deck-farfalle/src/input.rs`, `output.rs`, `lib.rs`, `xoofff.rs`
  (the Farfalle construction and its Xoofff instantiation).

Machine integers are modelled as `Nat` with explicit reductions modulo
`2 ^ 32` where 32-bit overflow matters; bytes are `Nat`s that are kept
below 256 by the operations themselves.  Fallible operations return their
`Result` as an `Except` value paired with the (possibly updated) receiver,
mirroring `&mut self` methods returning `Result<(), WriteTooLargeError>`.

Permutation states are modelled at the byte level: a state is its
little-endian byte serialization (a `List Nat` of length `SIZE`).  The
word-level `PermutationState` operations of the Rust code (wordwise xor,
the copy-writer with its skip/write/finish protocol) correspond to
bytewise xor and positional overwrite of this serialization; the
word-level writer itself is modelled separately and exactly (`LeW` below)
and its byte-level behaviour is proved, which justifies the byte-level
view used for the Farfalle layer.
-/

/-- Overwrite the bytes of `l` starting at offset `off` with `data`
(the composite effect of `skip off; write_bytes data; finish` on a
little-endian word-slice copy writer backing `l`). -/
def setBytes (l : List Nat) (off : Nat) (data : List Nat) : List Nat :=
  l.take off ++ data ++ l.drop (off + data.length)

theorem setBytes_nil (l : List Nat) (off : Nat) : setBytes l off [] = l := by
  simp [setBytes, List.take_append_drop]

theorem length_setBytes (l : List Nat) (off : Nat) (data : List Nat)
    (h : off + data.length ≤ l.length) :
    (setBytes l off data).length = l.length := by
  simp only [setBytes, List.length_append, List.length_take, List.length_drop]
  omega

theorem setBytes_append (l : List Nat) (off : Nat) (d1 d2 : List Nat)
    (h : off + d1.length ≤ l.length) :
    setBytes (setBytes l off d1) (off + d1.length) d2 = setBytes l off (d1 ++ d2) := by
  have hpre : (l.take off ++ d1).length = off + d1.length := by
    simp [List.length_take]; omega
  unfold setBytes
  rw [← List.append_assoc (l.take off) d1, List.take_left' hpre]
  have h2 : off + d1.length + d2.length = (l.take off ++ d1).length + d2.length := by
    rw [hpre]
  rw [h2, ← List.drop_drop, List.drop_left, List.drop_drop]
  have h3 : off + d1.length + d2.length = off + (d1 ++ d2).length := by
    simp [Nat.add_assoc]
  rw [h3, List.append_assoc]

theorem setBytes_full (l : List Nat) (data : List Nat) (h : data.length = l.length) :
    setBytes l 0 data = data := by
  simp [setBytes, List.drop_eq_nil_of_le, h.ge]

/-! ## `crypto-permutation/src/io/util.rs` and the error type -/

/-- `WriteTooLargeError { requested, capacity }` from `crypto-permutation/src/io.rs`. -/
structure WriteTooLargeError where
  requested : Nat
  capacity : Nat
deriving DecidableEq, Repr

/-- `check_write_size` from `crypto-permutation/src/io/util.rs`: `Ok` iff
`requested <= capacity`, otherwise the structured error. -/
def check_write_size (requested capacity : Nat) : Except WriteTooLargeError Unit :=
  if requested ≤ capacity then .ok () else .error ⟨requested, capacity⟩

/-! ## `crypto-permutation/src/buffer.rs`: `BufMut`

A `BufMut` borrows a byte region and a write cursor into it.  `mem` is the
whole underlying region (we model every byte as present; the Rust
`MaybeUninit` layer only tracks initialisation, which has no byte-level
observable content here) and `off` is the start of the current view
(`self.buf` in Rust is `mem[off..]`). -/

structure BufMut where
  mem : List Nat
  off : Nat
deriving DecidableEq, Repr

namespace BufMut

/-- `BufMut::len` / `Writer::capacity`: length of the current view. -/
def capacity (b : BufMut) : Nat := b.mem.length - b.off

/-- `Writer::skip` for `BufMut` (`buffer.rs` lines 103–107).  The source
checks the size, then evaluates `self.restrict(n..)`.  `restrict` reborrows
`self.buf` and returns a *new* `BufMut` over the subrange; the returned
value is immediately dropped and `self.buf` itself is not reassigned, so
the receiver is returned unchanged on success. -/
def skip (b : BufMut) (n : Nat) : BufMut × Except WriteTooLargeError Unit :=
  match check_write_size n b.capacity with
  | .error e => (b, .error e)
  | .ok _ => (b, .ok ())

/-- `Writer::write_bytes` for `BufMut`: `copy` (non-overlapping copy into the
view, after `check_write_size`) followed by `restrict_inplace(data.len()..)`,
which advances the cursor. -/
def write_bytes (b : BufMut) (data : List Nat) : BufMut × Except WriteTooLargeError Unit :=
  match check_write_size data.length b.capacity with
  | .error e => (b, .error e)
  | .ok _ => ({ mem := setBytes b.mem b.off data, off := b.off + data.length }, .ok ())

end BufMut

/-! ## `crypto-permutation/src/io/le_uint_slice_writer.rs` at `u32`

`LeU32SliceWriter` (copy flavour) and `LeU32SliceXorWriter` (xor flavour)
share all logic except the per-word `write` and `reset_partial_block`
methods, exactly as the `impl_le_uint_slice_writer_core!` macro shares
them.  The borrowed word slice is modelled by `done ++ buffer`: `buffer`
is the suffix view the writer still sees (`self.buffer`), `done` the words
the view has already moved past (`increment_view` moves words from
`buffer` to `done`). -/

/-- Little-endian byte serialization of a `u32` (`u32::to_le_bytes`);
`65536 = 256 ^ 2` and `16777216 = 256 ^ 3`. -/
def toLe4 (w : Nat) : List Nat :=
  [w % 256, w / 256 % 256, w / 65536 % 256, w / 16777216 % 256]

/-- `u32::from_le_bytes` on a 4-byte list. -/
def fromLe4 (b : List Nat) : Nat :=
  b.getD 0 0 + 256 * (b.getD 1 0 + 256 * (b.getD 2 0 + 256 * (b.getD 3 0)))

theorem toLe4_fromLe4 (b0 b1 b2 b3 : Nat) (h0 : b0 < 256) (h1 : b1 < 256)
    (h2 : b2 < 256) (h3 : b3 < 256) : toLe4 (fromLe4 [b0, b1, b2, b3]) = [b0, b1, b2, b3] := by
  have hf : fromLe4 [b0, b1, b2, b3] = b0 + 256 * (b1 + 256 * (b2 + 256 * b3)) := rfl
  simp only [toLe4, hf, List.cons.injEq, and_true]
  refine ⟨by omega, by omega, by omega, by omega⟩

theorem fromLe4_toLe4 (w : Nat) (h : w < 2 ^ 32) : fromLe4 (toLe4 w) = w := by
  have ht : fromLe4 (toLe4 w) =
      w % 256 + 256 * (w / 256 % 256 + 256 * (w / 65536 % 256 + 256 * (w / 16777216 % 256))) :=
    rfl
  rw [ht]
  omega

theorem length_toLe4 (w : Nat) : (toLe4 w).length = 4 := rfl

/-- The two flavours of the word-slice writer: `LeU32SliceWriter` commits a
word by overwriting `buffer[0]`, `LeU32SliceXorWriter` by xoring into it. -/
inductive WFlavor where
  | copy
  | xorw
deriving DecidableEq, Repr

/-- The word-slice writer state (both flavours; `UINT_SIZE = 4`). -/
structure LeW where
  /-- Words the view has already moved past (prefix of the borrowed slice). -/
  done : List Nat
  /-- `self.buffer`: the suffix the writer can still write to. -/
  buffer : List Nat
  /-- `self.partial_block`, always 4 bytes. -/
  partial_block : List Nat
  /-- `self.partial_filled`. -/
  partial_filled : Nat
deriving DecidableEq, Repr

namespace LeW

/-- `LeU32SliceWriter::new(buffer)` / `LeU32SliceXorWriter::new(buffer)`. -/
def new (buffer : List Nat) : LeW :=
  { done := [], buffer := buffer, partial_block := [0, 0, 0, 0], partial_filled := 0 }

/-- `Writer::capacity`: `buffer.len() * UINT_SIZE - partial_filled`. -/
def capacity (w : LeW) : Nat := w.buffer.length * 4 - w.partial_filled

/-- The whole borrowed word slice (what the caller sees after any operation). -/
def backing (w : LeW) : List Nat := w.done ++ w.buffer

/-- Per-flavour `write(val)`: `buffer[0] = val` (copy) or `buffer[0] ^= val`
(xor), merged here with the `increment_view(1)` that always follows it. -/
def commitWord (fl : WFlavor) (w : LeW) (val : Nat) : LeW :=
  { w with
    done := w.done ++ [match fl with
      | .copy => val
      | .xorw => Nat.xor (w.buffer.headI) val]
    buffer := w.buffer.drop 1 }

/-- `increment_view(n)` without a write: the next `n` words pass unchanged. -/
def incrementView (w : LeW) (n : Nat) : LeW :=
  { w with done := w.done ++ w.buffer.take n, buffer := w.buffer.drop n }

/-- `write_partial_block`: decode `partial_block` little-endian, commit it,
advance the view, reset `partial_filled`. -/
def write_partial_block (fl : WFlavor) (w : LeW) : LeW :=
  { commitWord fl w (fromLe4 w.partial_block) with partial_filled := 0 }

/-- Per-flavour `reset_partial_block`: the copy writer primes the scratch
from `buffer[0].to_le_bytes()` (so uncommitted tail bytes preserve the
word), the xor writer zeroes it (so they xor with zero). -/
def reset_partial_block (fl : WFlavor) (w : LeW) : LeW :=
  { w with partial_block := match fl with
      | .copy => toLe4 w.buffer.headI
      | .xorw => [0, 0, 0, 0] }

/-- `Writer::skip` (`le_uint_slice_writer.rs` lines 73–99). -/
def skip (fl : WFlavor) (w : LeW) (n0 : Nat) : LeW × Except WriteTooLargeError Unit :=
  match check_write_size n0 w.capacity with
  | .error e => (w, .error e)
  | .ok _ =>
    let st1 : LeW × Nat :=
      if w.partial_filled ≠ 0 then
        let add := min n0 (4 - w.partial_filled)
        let w1 := { w with partial_filled := w.partial_filled + add }
        (if w1.partial_filled = 4 then write_partial_block fl w1 else w1, n0 - add)
      else (w, n0)
    let w1 := st1.1
    let n1 := st1.2
    let rem := n1 % 4
    let w2 := incrementView w1 ((n1 - rem) / 4)
    (if rem ≠ 0 then reset_partial_block fl { w2 with partial_filled := rem } else w2, .ok ())

/-- The `chunks_exact(4)` loop of `write_bytes`: commit `k` whole words
directly from `data`, returning the writer and the not-yet-consumed rest. -/
def fullChunks (fl : WFlavor) : Nat → LeW → List Nat → LeW × List Nat
  | 0, w, data => (w, data)
  | k + 1, w, data =>
    fullChunks fl k (commitWord fl w (fromLe4 (data.take 4))) (data.drop 4)

/-- The `self.partial_filled != 0` stage of `write_bytes`
(`le_uint_slice_writer.rs` lines 104–117): top up the partial scratch
word, committing it if it becomes full; returns the writer and the
unconsumed data. -/
def wbTopUp (fl : WFlavor) (w : LeW) (data : List Nat) : LeW × List Nat :=
  let add := min data.length (4 - w.partial_filled)
  let w1 := { w with
    partial_filled := w.partial_filled + add
    partial_block := setBytes w.partial_block w.partial_filled (data.take add) }
  (if w1.partial_filled = 4 then write_partial_block fl w1 else w1, data.drop add)

/-- The chunk loop and remainder stage of `write_bytes`
(`le_uint_slice_writer.rs` lines 119–133): commit whole words directly,
then install a non-empty remainder into a freshly primed scratch word. -/
def wbTail (fl : WFlavor) (w1 : LeW) (d1 : List Nat) : LeW :=
  let st2 := fullChunks fl (d1.length / 4) w1 d1
  let w2 := st2.1
  let rem := st2.2
  if rem.isEmpty then w2
  else
    let w3 := reset_partial_block fl { w2 with partial_filled := rem.length }
    { w3 with partial_block := setBytes w3.partial_block 0 rem }

/-- `Writer::write_bytes` (`le_uint_slice_writer.rs` lines 101–136). -/
def write_bytes (fl : WFlavor) (w : LeW) (data : List Nat) :
    LeW × Except WriteTooLargeError Unit :=
  match check_write_size data.length w.capacity with
  | .error e => (w, .error e)
  | .ok _ =>
    let st1 : LeW × List Nat :=
      if w.partial_filled ≠ 0 then wbTopUp fl w data else (w, data)
    (wbTail fl st1.1 st1.2, .ok ())

/-- `Writer::finish`: commit the partial block if any; afterwards the
caller sees the backing slice `done ++ buffer`. -/
def finish (fl : WFlavor) (w : LeW) : LeW :=
  if w.partial_filled ≠ 0 then write_partial_block fl w else w

end LeW

/-! ## `permutation-xoodoo/src/permutation.rs`: the Xoodoo permutation

Words are `Nat`s kept below `2 ^ 32 = 4294967296`; `rotate_left` and `!`
are spelled out on `Nat`. -/

/-- `u32::rotate_left(x, n)` for `0 < n < 32` and `x < 2 ^ 32`. -/
def rotl32 (x n : Nat) : Nat := ((x <<< n) % 4294967296) ||| (x >>> (32 - n))

/-- Bitwise complement of a `u32` (`!x` in Rust): for `x < 2 ^ 32` this is
`2 ^ 32 - 1 - x`. -/
def not32 (x : Nat) : Nat := 4294967295 - x

/-- `ROUND_KEYS` from `permutation.rs` lines 86–89. -/
def ROUND_KEYS : List Nat :=
  [0x00000058, 0x00000038, 0x000003C0, 0x000000D0, 0x00000120, 0x00000014,
   0x00000060, 0x0000002C, 0x00000380, 0x000000F0, 0x000001A0, 0x00000012]

/-- `MAX_ROUNDS` from `permutation.rs`. -/
def MAX_ROUNDS : Nat := 12

/-- One round of Xoodoo with round constant `rk` (the loop body of
`xoodoo`, `permutation.rs` lines 31–69), on a 12-word state. -/
def xoodooRound (rk : Nat) (st : List Nat) : List Nat :=
  let s := fun i => st.getD i 0
  let p0 := s 0 ^^^ s 4 ^^^ s 8
  let p1 := s 1 ^^^ s 5 ^^^ s 9
  let p2 := s 2 ^^^ s 6 ^^^ s 10
  let p3 := s 3 ^^^ s 7 ^^^ s 11
  let e0 := rotl32 p3 5 ^^^ rotl32 p3 14
  let e1 := rotl32 p0 5 ^^^ rotl32 p0 14
  let e2 := rotl32 p1 5 ^^^ rotl32 p1 14
  let e3 := rotl32 p2 5 ^^^ rotl32 p2 14
  let tmp0 := e0 ^^^ s 0 ^^^ rk
  let tmp1 := e1 ^^^ s 1
  let tmp2 := e2 ^^^ s 2
  let tmp3 := e3 ^^^ s 3
  let tmp4 := e3 ^^^ s 7
  let tmp5 := e0 ^^^ s 4
  let tmp6 := e1 ^^^ s 5
  let tmp7 := e2 ^^^ s 6
  let tmp8 := rotl32 (e0 ^^^ s 8) 11
  let tmp9 := rotl32 (e1 ^^^ s 9) 11
  let tmp10 := rotl32 (e2 ^^^ s 10) 11
  let tmp11 := rotl32 (e3 ^^^ s 11) 11
  [(not32 tmp4 &&& tmp8) ^^^ tmp0,
   (not32 tmp5 &&& tmp9) ^^^ tmp1,
   (not32 tmp6 &&& tmp10) ^^^ tmp2,
   (not32 tmp7 &&& tmp11) ^^^ tmp3,
   rotl32 ((not32 tmp8 &&& tmp0) ^^^ tmp4) 1,
   rotl32 ((not32 tmp9 &&& tmp1) ^^^ tmp5) 1,
   rotl32 ((not32 tmp10 &&& tmp2) ^^^ tmp6) 1,
   rotl32 ((not32 tmp11 &&& tmp3) ^^^ tmp7) 1,
   rotl32 ((not32 tmp2 &&& tmp6) ^^^ tmp10) 8,
   rotl32 ((not32 tmp3 &&& tmp7) ^^^ tmp11) 8,
   rotl32 ((not32 tmp0 &&& tmp4) ^^^ tmp8) 8,
   rotl32 ((not32 tmp1 &&& tmp5) ^^^ tmp9) 8]

/-- The round constants `xoodoo::<R>` iterates over: the `R` *last*
entries of `ROUND_KEYS` (`&ROUND_KEYS[MAX_ROUNDS - R..MAX_ROUNDS]`). -/
def xoodooUsedKeys (R : Nat) : List Nat := ROUND_KEYS.drop (MAX_ROUNDS - R)

/-- `xoodoo::<R>` from `permutation.rs`: perform the last `R` rounds. -/
def xoodoo (R : Nat) (st : List Nat) : List Nat :=
  (xoodooUsedKeys R).foldl (fun s rk => xoodooRound rk s) st

/-! ## `deck-farfalle/src/xoofff.rs`: the Xoofff rolling functions -/

/-- `xoofff::RollC::apply` on the 12-word Xoodoo state. -/
def xoofffRollCWords (a : List Nat) : List Nat :=
  let g := fun i => a.getD i 0
  let a0 := g 0 ^^^ ((g 0 <<< 13) % 4294967296) ^^^ rotl32 (g 4) 3
  a.drop 4 ++ [g 1, g 2, g 3, a0]

/-- `xoofff::RollE::apply` on the 12-word Xoodoo state. -/
def xoofffRollEWords (a : List Nat) : List Nat :=
  let g := fun i => a.getD i 0
  let a0 := (g 4 &&& g 8) ^^^ rotl32 (g 0) 5 ^^^ rotl32 (g 4) 13 ^^^ 0x00000007
  a.drop 4 ++ [g 1, g 2, g 3, a0]

/-! ## Byte-level view of a permutation state

`XoodooState` (and `KeccakState1600`) hold a word array and expose a
little-endian byte read view, a copy-write view and an xor-write view
through the `LeU32SliceReader` / `LeU32Slice(Xor)Writer` adapters.  In
this development a state is represented by its byte serialization; a
word-level map `f` acts on it as `wordsToBytes ∘ f ∘ bytesToWords`. -/

/-- Little-endian serialization of a word array (the byte stream the
state reader yields). -/
def wordsToBytes : List Nat → List Nat
  | [] => []
  | w :: ws => toLe4 w ++ wordsToBytes ws

/-- Parse a byte stream into 32-bit words, little-endian, whole words only. -/
def bytesToWords : List Nat → List Nat
  | b0 :: b1 :: b2 :: b3 :: rest => fromLe4 [b0, b1, b2, b3] :: bytesToWords rest
  | _ => []

/-- Act with a word-level state transformation on the byte serialization. -/
def permBytes (f : List Nat → List Nat) (b : List Nat) : List Nat :=
  wordsToBytes (f (bytesToWords b))

/-! ## `deck-farfalle`: the generic Farfalle construction

`FarfalleConfig` bundles the state size and the four permutations and two
rolling functions; a `Farfalle` is the pair `(key, state)` of permutation
states (`input.rs` lines 14–18), both as byte serializations. -/

/-- `FarfalleConfig` (from `deck-farfalle/src/lib.rs`), with every
permutation and rolling function given by its action on the byte
serialization of the state. -/
structure FarCfg where
  SIZE : Nat
  permB : List Nat → List Nat
  permC : List Nat → List Nat
  permD : List Nat → List Nat
  permE : List Nat → List Nat
  rollC : List Nat → List Nat
  rollE : List Nat → List Nat

/-- Bytewise xor of two states (`BitXorAssign` on states is wordwise xor,
which is bytewise xor of the serializations). -/
def xorS (a b : List Nat) : List Nat := List.zipWith Nat.xor a b

/-- The zero state (`Default::default()`), as `SIZE` zero bytes. -/
def zeroState (cfg : FarCfg) : List Nat := List.replicate cfg.SIZE 0

/-- `Farfalle { key, state }`: the expanded key and the accumulator
(called `acc` here to avoid clashing with the expansion state). -/
structure Farfalle where
  key : List Nat
  acc : List Nat
deriving DecidableEq, Repr

/-- `Farfalle::process_block` (`input.rs` lines 70–75): `*block ^= key;
roll_c(key); perm_c(block); state ^= block`.  Returns the updated Farfalle
and the modified block. -/
def Farfalle.process_block (cfg : FarCfg) (f : Farfalle) (block : List Nat) :
    Farfalle × List Nat :=
  let b1 := xorS block f.key
  let k1 := cfg.rollC f.key
  let b2 := cfg.permC b1
  ({ key := k1, acc := xorS f.acc b2 }, b2)

/-- `Farfalle::key_expand`: write `key ∥ 0x01` into a zero state, apply
permutation B.  (The source asserts `key.len() < SIZE`.) -/
def Farfalle.key_expand (cfg : FarCfg) (key : List Nat) : List Nat :=
  cfg.permB (setBytes (zeroState cfg) 0 (key ++ [1]))

/-- `Farfalle::init_custom`: expanded key plus all-zero accumulator. -/
def Farfalle.init_custom (cfg : FarCfg) (key : List Nat) : Farfalle :=
  { key := Farfalle.key_expand cfg key, acc := zeroState cfg }

/-- `InputWriter` (`input.rs` lines 80–87): scratch block, fill count and
the borrowed Farfalle. -/
structure InputWriter where
  block : List Nat
  filled : Nat
  far : Farfalle
deriving DecidableEq, Repr

namespace InputWriter

/-- `InputWriter::new`: zero block, `filled = 0`. -/
def new (cfg : FarCfg) (f : Farfalle) : InputWriter :=
  { block := zeroState cfg, filled := 0, far := f }

/-- `InputWriter::process_block`: process the scratch block (which the
call leaves permuted in place) and reset `filled`. -/
def process_block (cfg : FarCfg) (w : InputWriter) : InputWriter :=
  let r := Farfalle.process_block cfg w.far w.block
  { block := r.2, filled := 0, far := r.1 }

/-- `Writer::skip` for `InputWriter` is a no-op that always succeeds. -/
def skip (w : InputWriter) (_n : Nat) : InputWriter := w

/-- The `chunks_exact(SIZE)` loop plus remainder handling of
`InputWriter::write_bytes` (`input.rs` lines 132–146), with the chunk
count made explicit: each full chunk overwrites the whole block
(`copy_writer` + `write_bytes(chunk)` + `finish` with `chunk.len() = SIZE`)
and is processed; a non-empty remainder is written at offset 0 of the
block, leaving the bytes beyond it as they were. -/
def absorbChunks (cfg : FarCfg) : Nat → InputWriter → List Nat → InputWriter
  | 0, w, data =>
    if data.isEmpty then w
    else { w with block := setBytes w.block 0 data, filled := data.length }
  | k + 1, w, data =>
    absorbChunks cfg k
      (process_block cfg { w with block := data.take cfg.SIZE })
      (data.drop cfg.SIZE)

/-- The `self.filled != 0` stage of `InputWriter::write_bytes` (`input.rs`
lines 118–130): copy up to `SIZE - filled` bytes into `block` at offset
`filled` (via a copy writer with a pre-skip of `filled`), process the
block if that filled it; returns the writer and the unconsumed data. -/
def topUp (cfg : FarCfg) (w : InputWriter) (data : List Nat) : InputWriter × List Nat :=
  let add := min data.length (cfg.SIZE - w.filled)
  let w1 := { w with
    block := setBytes w.block w.filled (data.take add)
    filled := w.filled + add }
  (if w1.filled = cfg.SIZE then process_block cfg w1 else w1, data.drop add)

/-- `InputWriter::write_bytes` (`input.rs` lines 117–149).  The first
stage tops up a partially filled block, processing it if it becomes full;
the remaining data is absorbed in `SIZE`-chunks with the remainder
buffered. -/
def write_bytes (cfg : FarCfg) (w : InputWriter) (data : List Nat) : InputWriter :=
  let st1 : InputWriter × List Nat :=
    if w.filled ≠ 0 then topUp cfg w data else (w, data)
  absorbChunks cfg (st1.2.length / cfg.SIZE) st1.1 st1.2

/-- `Writer::finish` for `InputWriter` (`input.rs` lines 152–156):
`write_bytes(&[0x01])`, `process_block()`, then one extra `roll_c_key()`.
Returns the Farfalle the writer releases. -/
def finish (cfg : FarCfg) (w : InputWriter) : Farfalle :=
  let w1 := write_bytes cfg w [1]
  let w2 := process_block cfg w1
  { w2.far with key := cfg.rollC w2.far.key }

end InputWriter

/-! ## `deck-farfalle/src/output.rs`: the expansion side

`write_to` streams into a generic `Writer`; the bytes pushed through it
are well defined (they come from the `output_buffer` state reader), so the
model returns the emitted byte list alongside the updated generator.  The
`check_write_size(n, writer.capacity())` guard and error propagation are
dropped: the byte-list sink has unbounded capacity and never errors. -/

/-- `FarfalleOutputGenerator` (`output.rs` lines 10–22). -/
structure OutputGen where
  key : List Nat
  state : List Nat
  output_buffer : List Nat
  buffered : Nat
deriving DecidableEq, Repr

namespace OutputGen

/-- `next_out_block` (`output.rs` lines 45–50): `output_buffer := state`,
`state := roll_e(state)`, `perm_e(output_buffer)`, `output_buffer ^= key`. -/
def next_out_block (cfg : FarCfg) (g : OutputGen) : OutputGen :=
  { g with
    output_buffer := xorS (cfg.permE g.state) g.key
    state := cfg.rollE g.state }

/-- The `for _ in 0..n_blocks` loop of `write_to`: emit `k` full blocks
(each freshly produced block is streamed entirely through the state
reader). -/
def emitBlocks (cfg : FarCfg) : Nat → OutputGen → List Nat × OutputGen
  | 0, g => ([], g)
  | k + 1, g =>
    let g1 := next_out_block cfg g
    let r := emitBlocks cfg k g1
    (g1.output_buffer ++ r.1, r.2)

/-- Stages 2 and 3 of `Reader::write_to` (`output.rs` lines 90–102):
`n1` is the byte count still to emit after the buffered tail was drained;
emit `(n1 - rem) / SIZE` whole blocks, then – when `rem = n1 % SIZE` is
non-zero – one more block of which only the first `rem` bytes are
emitted, buffering the rest. -/
def writeCore (cfg : FarCfg) (g1 : OutputGen) (n1 : Nat) : List Nat × OutputGen :=
  let rem := n1 % cfg.SIZE
  let st2 := emitBlocks cfg ((n1 - rem) / cfg.SIZE) g1
  if rem ≠ 0 then
    let g3 := next_out_block cfg st2.2
    (st2.1 ++ g3.output_buffer.take rem, { g3 with buffered := cfg.SIZE - rem })
  else st2

/-- `Reader::write_to` (`output.rs` lines 76–104): first drain up to `n`
bytes of the buffered tail of `output_buffer` (a state reader skipping the
already-consumed `SIZE - buffered` prefix), then whole blocks, then a
partial block whose unread tail stays buffered. -/
def write_to (cfg : FarCfg) (g : OutputGen) (n : Nat) : List Nat × OutputGen :=
  if g.buffered ≠ 0 then
    let out_size := min g.buffered n
    let out1 := (g.output_buffer.drop (cfg.SIZE - g.buffered)).take out_size
    let r := writeCore cfg { g with buffered := g.buffered - out_size } (n - out_size)
    (out1 ++ r.1, r.2)
  else writeCore cfg g n

/-- The `for _ in 0..n_blocks` loop of `skip`: produce blocks, emit nothing. -/
def skipBlocks (cfg : FarCfg) : Nat → OutputGen → OutputGen
  | 0, g => g
  | k + 1, g => skipBlocks cfg k (next_out_block cfg g)

/-- Stages 2 and 3 of `Reader::skip` (`output.rs` lines 64–73). -/
def skipCore (cfg : FarCfg) (g1 : OutputGen) (n1 : Nat) : OutputGen :=
  let rem := n1 % cfg.SIZE
  let g2 := skipBlocks cfg ((n1 - rem) / cfg.SIZE) g1
  if rem ≠ 0 then { next_out_block cfg g2 with buffered := cfg.SIZE - rem }
  else g2

/-- `Reader::skip` (`output.rs` lines 58–74): same state evolution as
`write_to` but nothing is emitted. -/
def skip (cfg : FarCfg) (g : OutputGen) (n : Nat) : OutputGen :=
  if g.buffered ≠ 0 then
    let out_size := min g.buffered n
    skipCore cfg { g with buffered := g.buffered - out_size } (n - out_size)
  else skipCore cfg g n

end OutputGen

/-- `DeckFunction::output_reader` for `Farfalle` (`deck-farfalle/src/lib.rs`
lines 90–94): clone the accumulator, apply permutation D to the clone,
build the generator from the cloned key, the permuted clone and the
config.  The method takes `&self`; the Farfalle it leaves behind is
returned as the second component. -/
def Farfalle.output_reader (cfg : FarCfg) (f : Farfalle) : OutputGen × Farfalle :=
  ({ key := f.key
     state := cfg.permD f.acc
     output_buffer := zeroState cfg
     buffered := 0 }, f)

/-! ## The Xoofff instantiation (`deck-farfalle/src/xoofff.rs`)

`XoofffConfig`: `SIZE = 48`, all four permutations are `Xoodoo[6]`, with
the `xoofff` rolling functions, all acting on the 12-word state through
its byte serialization. -/

/-- `XoofffConfig` as a byte-level `FarCfg`. -/
def xoofffCfg : FarCfg :=
  { SIZE := 48
    permB := permBytes (xoodoo 6)
    permC := permBytes (xoodoo 6)
    permD := permBytes (xoodoo 6)
    permE := permBytes (xoodoo 6)
    rollC := permBytes xoofffRollCWords
    rollE := permBytes xoofffRollEWords }

/-! ## Regularity of a config and the input-writer invariant -/

/-- The length-preservation facts a `FarfalleConfig`'s permutations and
rolling functions enjoy (they act on fixed-size states), plus `SIZE > 0`. -/
structure CfgReg (cfg : FarCfg) : Prop where
  size_pos : 0 < cfg.SIZE
  permC_len : ∀ s : List Nat, s.length = cfg.SIZE → (cfg.permC s).length = cfg.SIZE
  permE_len : ∀ s : List Nat, s.length = cfg.SIZE → (cfg.permE s).length = cfg.SIZE
  rollC_len : ∀ s : List Nat, s.length = cfg.SIZE → (cfg.rollC s).length = cfg.SIZE
  rollE_len : ∀ s : List Nat, s.length = cfg.SIZE → (cfg.rollE s).length = cfg.SIZE

theorem xorS_length (a b : List Nat) : (xorS a b).length = min a.length b.length := by
  simp [xorS]

namespace InputWriter

/-- The input-writer invariant: `filled < SIZE` plus the length facts. -/
def Inv (cfg : FarCfg) (w : InputWriter) : Prop :=
  w.filled < cfg.SIZE ∧ w.block.length = cfg.SIZE ∧
    w.far.key.length = cfg.SIZE ∧ w.far.acc.length = cfg.SIZE

theorem new_Inv (cfg : FarCfg) (hreg : CfgReg cfg) (f : Farfalle)
    (hk : f.key.length = cfg.SIZE) (ha : f.acc.length = cfg.SIZE) :
    Inv cfg (new cfg f) := by
  refine ⟨hreg.size_pos, ?_, hk, ha⟩
  simp [new, zeroState]

theorem process_block_Inv (cfg : FarCfg) (hreg : CfgReg cfg) (w : InputWriter)
    (hb : w.block.length = cfg.SIZE) (hk : w.far.key.length = cfg.SIZE)
    (ha : w.far.acc.length = cfg.SIZE) :
    Inv cfg (process_block cfg w) := by
  have hxor : (xorS w.block w.far.key).length = cfg.SIZE := by
    rw [xorS_length, hb, hk]; omega
  have hperm := hreg.permC_len _ hxor
  refine ⟨hreg.size_pos, hperm, hreg.rollC_len _ hk, ?_⟩
  simp only [process_block, Farfalle.process_block]
  rw [xorS_length, ha, hperm]; omega

/-- `process_block` reads only `block` and `far`: the incoming `filled` is
irrelevant. -/
theorem process_block_filled_irrel (cfg : FarCfg) (w : InputWriter) (n : Nat) :
    process_block cfg { w with filled := n } = process_block cfg w := rfl

/-- One absorbed byte: write it at offset `filled`, process the block when
it gets full.  `write_bytes` is proved equal to folding this step. -/
def feedByte (cfg : FarCfg) (w : InputWriter) (b : Nat) : InputWriter :=
  let w1 := { w with block := setBytes w.block w.filled [b], filled := w.filled + 1 }
  if w.filled + 1 = cfg.SIZE then process_block cfg w1 else w1

/-- Byte-at-a-time absorption. -/
def feed (cfg : FarCfg) (w : InputWriter) (data : List Nat) : InputWriter :=
  data.foldl (feedByte cfg) w

theorem feed_append (cfg : FarCfg) (w : InputWriter) (d1 d2 : List Nat) :
    feed cfg (feed cfg w d1) d2 = feed cfg w (d1 ++ d2) := by
  simp [feed]

theorem feedByte_Inv (cfg : FarCfg) (hreg : CfgReg cfg) (w : InputWriter)
    (hInv : Inv cfg w) (b : Nat) : Inv cfg (feedByte cfg w b) := by
  obtain ⟨hf, hb, hk, ha⟩ := hInv
  have hlen : (setBytes w.block w.filled [b]).length = cfg.SIZE := by
    rw [length_setBytes _ _ _ (by simp; omega), hb]
  unfold feedByte
  by_cases hfull : w.filled + 1 = cfg.SIZE
  · rw [if_pos hfull]
    exact process_block_Inv cfg hreg _ hlen hk ha
  · rw [if_neg hfull]
    refine ⟨?_, hlen, hk, ha⟩
    show w.filled + 1 < cfg.SIZE
    omega

theorem feed_Inv (cfg : FarCfg) (hreg : CfgReg cfg) (w : InputWriter)
    (hInv : Inv cfg w) (data : List Nat) : Inv cfg (feed cfg w data) := by
  induction data generalizing w with
  | nil => exact hInv
  | cons b rest ih => exact ih _ (feedByte_Inv cfg hreg w hInv b)

theorem feed_fill (cfg : FarCfg) (w : InputWriter) (data : List Nat)
    (h : w.filled + data.length < cfg.SIZE) (hb : cfg.SIZE ≤ w.block.length) :
    feed cfg w data =
      { w with block := setBytes w.block w.filled data, filled := w.filled + data.length } := by
  induction data generalizing w with
  | nil => simp [feed, setBytes_nil]
  | cons b rest ih =>
    have hlen : (b :: rest).length = rest.length + 1 := by simp
    have hstep : feedByte cfg w b =
        { w with block := setBytes w.block w.filled [b], filled := w.filled + 1 } := by
      unfold feedByte
      rw [if_neg (by rw [hlen] at h; omega : ¬(w.filled + 1 = cfg.SIZE))]
    have hrec := ih { w with block := setBytes w.block w.filled [b], filled := w.filled + 1 }
      (by rw [hlen] at h; simp; omega)
      (by rw [length_setBytes _ _ _ (by simp; rw [hlen] at h; omega)]; exact hb)
    have hsb : setBytes (setBytes w.block w.filled [b]) (w.filled + 1) rest =
        setBytes w.block w.filled (b :: rest) := by
      have h1 := setBytes_append w.block w.filled [b] rest (by simp; rw [hlen] at h; omega)
      simpa using h1
    calc feed cfg w (b :: rest) = feed cfg (feedByte cfg w b) rest := rfl
      _ = _ := by
        rw [hstep, hrec]
        simp only [InputWriter.mk.injEq]
        refine ⟨hsb, by simp; omega, trivial⟩

theorem feed_fill_exact (cfg : FarCfg) (w : InputWriter) (data : List Nat)
    (h : w.filled + data.length = cfg.SIZE) (hfill : w.filled < cfg.SIZE)
    (hb : cfg.SIZE ≤ w.block.length) :
    feed cfg w data =
      process_block cfg
        { w with block := setBytes w.block w.filled data, filled := cfg.SIZE } := by
  induction data generalizing w with
  | nil => simp at h; omega
  | cons b rest ih =>
    by_cases hfull : w.filled + 1 = cfg.SIZE
    · have hrest : rest = [] := by
        have : rest.length = 0 := by simp at h; omega
        exact List.length_eq_zero.mp this
      subst hrest
      show feedByte cfg w b = _
      unfold feedByte
      rw [if_pos hfull, hfull]
    · have hstep : feedByte cfg w b =
          { w with block := setBytes w.block w.filled [b], filled := w.filled + 1 } := by
        unfold feedByte
        rw [if_neg hfull]
      have hsz : w.filled + 1 ≤ cfg.SIZE := by simp at h; omega
      have hrec := ih { w with block := setBytes w.block w.filled [b], filled := w.filled + 1 }
        (by show w.filled + 1 + rest.length = cfg.SIZE; simp at h; omega)
        (by show w.filled + 1 < cfg.SIZE; omega)
        (by show cfg.SIZE ≤ (setBytes w.block w.filled [b]).length
            rw [length_setBytes _ _ _ (by simp; omega)]; exact hb)
      have hsb : setBytes (setBytes w.block w.filled [b]) (w.filled + 1) rest =
          setBytes w.block w.filled (b :: rest) := by
        have h1 := setBytes_append w.block w.filled [b] rest (by simp; omega)
        simpa using h1
      calc feed cfg w (b :: rest) = feed cfg (feedByte cfg w b) rest := rfl
        _ = _ := by rw [hstep, hrec, hsb]

end InputWriter


namespace InputWriter

theorem absorbChunks_eq_feed (cfg : FarCfg) (hreg : CfgReg cfg) :
    ∀ (k : Nat) (w : InputWriter) (data : List Nat), w.filled = 0 → Inv cfg w →
      k = data.length / cfg.SIZE → absorbChunks cfg k w data = feed cfg w data := by
  intro k
  induction k with
  | zero =>
    intro w data h0 hInv hk
    have hlt : data.length < cfg.SIZE :=
      (Nat.div_eq_zero_iff hreg.size_pos).mp hk.symm
    by_cases hne : data.isEmpty
    · have hdata : data = [] := List.isEmpty_iff.mp hne
      subst hdata
      simp [absorbChunks, feed]
    · have habs : absorbChunks cfg 0 w data =
          { w with block := setBytes w.block 0 data, filled := data.length } := by
        show (if data.isEmpty then w else _) = _
        rw [if_neg hne]
      rw [habs, feed_fill cfg w data (by omega) (le_of_eq hInv.2.1.symm), h0]
      simp
  | succ k ih =>
    intro w data h0 hInv hk
    have hge : cfg.SIZE ≤ data.length := by
      by_contra hlt
      push_neg at hlt
      rw [Nat.div_eq_of_lt hlt] at hk
      omega
    have htake : (data.take cfg.SIZE).length = cfg.SIZE := by
      simp [List.length_take]; omega
    have hw1 : feed cfg w (data.take cfg.SIZE) =
        process_block cfg { w with block := data.take cfg.SIZE } := by
      rw [feed_fill_exact cfg w (data.take cfg.SIZE) (by rw [htake, h0]; omega)
        hInv.1 (le_of_eq hInv.2.1.symm), h0]
      rw [setBytes_full _ _ (by rw [htake, hInv.2.1])]
      rfl
    have hInv1 : Inv cfg (process_block cfg { w with block := data.take cfg.SIZE }) :=
      process_block_Inv cfg hreg _ htake hInv.2.2.1 hInv.2.2.2
    have hk1 : k = (data.drop cfg.SIZE).length / cfg.SIZE := by
      rw [List.length_drop]
      have := Nat.div_eq_sub_div hreg.size_pos hge
      omega
    calc absorbChunks cfg (k + 1) w data
        = absorbChunks cfg k (process_block cfg { w with block := data.take cfg.SIZE })
            (data.drop cfg.SIZE) := rfl
      _ = feed cfg (process_block cfg { w with block := data.take cfg.SIZE })
            (data.drop cfg.SIZE) := ih _ _ rfl hInv1 hk1
      _ = feed cfg (feed cfg w (data.take cfg.SIZE)) (data.drop cfg.SIZE) := by rw [hw1]
      _ = feed cfg w data := by rw [feed_append, List.take_append_drop]

theorem write_bytes_eq_feed (cfg : FarCfg) (hreg : CfgReg cfg) (w : InputWriter)
    (data : List Nat) (hInv : Inv cfg w) :
    write_bytes cfg w data = feed cfg w data := by
  by_cases h0 : w.filled = 0
  · show absorbChunks cfg _ (if w.filled ≠ 0 then topUp cfg w data else (w, data)).1 _ = _
    rw [if_neg (by simp [h0])]
    exact absorbChunks_eq_feed cfg hreg _ w data h0 hInv rfl
  · show absorbChunks cfg _ (if w.filled ≠ 0 then topUp cfg w data else (w, data)).1 _ = _
    rw [if_pos h0]
    have hfil : w.filled < cfg.SIZE := hInv.1
    set add := min data.length (cfg.SIZE - w.filled) with hadd
    have haddle : add ≤ cfg.SIZE - w.filled := Nat.min_le_right _ _
    have haddlen : (data.take add).length = add := by
      simp [List.length_take, hadd]
    set wA : InputWriter := { w with
      block := setBytes w.block w.filled (data.take add)
      filled := w.filled + add } with hwA
    have hblockA : wA.block.length = cfg.SIZE := by
      rw [hwA]
      show (setBytes w.block w.filled (data.take add)).length = cfg.SIZE
      rw [length_setBytes _ _ _ (by rw [haddlen, hInv.2.1]; omega), hInv.2.1]
    have htop : topUp cfg w data = (if wA.filled = cfg.SIZE then process_block cfg wA
        else wA, data.drop add) := rfl
    rw [htop]
    by_cases hfull : w.filled + add = cfg.SIZE
    · have hWfA : wA.filled = cfg.SIZE := hfull
      rw [if_pos hWfA]
      have hfe : feed cfg w (data.take add) = process_block cfg wA := by
        rw [feed_fill_exact cfg w (data.take add) (by rw [haddlen]; exact hfull)
          hInv.1 (le_of_eq hInv.2.1.symm), hwA]
        rw [show cfg.SIZE = w.filled + add from hfull.symm]
      have hInvA : Inv cfg (process_block cfg wA) :=
        process_block_Inv cfg hreg wA hblockA hInv.2.2.1 hInv.2.2.2
      calc absorbChunks cfg ((data.drop add).length / cfg.SIZE)
            (process_block cfg wA) (data.drop add)
          = feed cfg (process_block cfg wA) (data.drop add) :=
            absorbChunks_eq_feed cfg hreg _ _ _ rfl hInvA rfl
        _ = feed cfg (feed cfg w (data.take add)) (data.drop add) := by rw [hfe]
        _ = feed cfg w data := by rw [feed_append, List.take_append_drop]
    · have hWfA : ¬(wA.filled = cfg.SIZE) := hfull
      rw [if_neg hWfA]
      have haddeq : add = data.length := by
        rcases Nat.le_total data.length (cfg.SIZE - w.filled) with h | h
        · simp [hadd, Nat.min_eq_left h]
        · exfalso
          have : add = cfg.SIZE - w.filled := by simp [hadd, Nat.min_eq_right h]
          omega
      have hdrop : data.drop add = [] := by rw [haddeq, List.drop_length]
      rw [hdrop]
      have habs : absorbChunks cfg (([] : List Nat).length / cfg.SIZE) wA [] = wA := by
        simp [absorbChunks]
      rw [habs]
      have htk : data.take add = data := by rw [haddeq, List.take_length]
      rw [feed_fill cfg w data (by omega) (le_of_eq hInv.2.1.symm), hwA, htk, haddeq]

theorem write_bytes_Inv (cfg : FarCfg) (hreg : CfgReg cfg) (w : InputWriter)
    (data : List Nat) (hInv : Inv cfg w) : Inv cfg (write_bytes cfg w data) := by
  rw [write_bytes_eq_feed cfg hreg w data hInv]
  exact feed_Inv cfg hreg w hInv data

end InputWriter

namespace InputWriter

theorem foldl_write_bytes_eq (cfg : FarCfg) (hreg : CfgReg cfg) (w : InputWriter)
    (hInv : Inv cfg w) (ss : List (List Nat)) :
    ss.foldl (write_bytes cfg) w = feed cfg w ss.flatten := by
  induction ss generalizing w with
  | nil => rfl
  | cons s ss ih =>
    calc (s :: ss).foldl (write_bytes cfg) w = ss.foldl (write_bytes cfg) (write_bytes cfg w s) :=
        rfl
      _ = feed cfg (write_bytes cfg w s) ss.flatten :=
        ih _ (write_bytes_Inv cfg hreg w s hInv)
      _ = feed cfg (feed cfg w s) ss.flatten := by
        rw [write_bytes_eq_feed cfg hreg w s hInv]
      _ = feed cfg w (s :: ss).flatten := by rw [feed_append, List.flatten_cons]

end InputWriter

/-- An identity configuration over 2-byte states, used to exercise the
generic theorems on concrete inputs. -/
def idCfg : FarCfg :=
  { SIZE := 2, permB := id, permC := id, permD := id, permE := id, rollC := id, rollE := id }

theorem idCfg_reg : CfgReg idCfg :=
  ⟨by decide, fun _ h => h, fun _ h => h, fun _ h => h, fun _ h => h⟩

/-- C4: split independence — absorbing byte slices `s₁, …, sₖ` through one
input writer with `write_bytes(s₁) … write_bytes(sₖ); finish` yields
exactly the same Farfalle state (key and accumulator) as absorbing the
concatenation `s₁ ∥ … ∥ sₖ` with a single `write_bytes` before `finish`. -/
theorem farfalle_split_independence (cfg : FarCfg) (hreg : CfgReg cfg) (f : Farfalle)
    (hk : f.key.length = cfg.SIZE) (ha : f.acc.length = cfg.SIZE) (ss : List (List Nat)) :
    InputWriter.finish cfg (ss.foldl (InputWriter.write_bytes cfg) (InputWriter.new cfg f)) =
      InputWriter.finish cfg (InputWriter.write_bytes cfg (InputWriter.new cfg f) ss.flatten) := by
  have hInv := InputWriter.new_Inv cfg hreg f hk ha
  rw [InputWriter.foldl_write_bytes_eq cfg hreg _ hInv ss,
    InputWriter.write_bytes_eq_feed cfg hreg _ _ hInv]

/-- Witness for `farfalle_split_independence` at a concrete config, key
state and split. -/
theorem farfalle_split_independence_witness :
    InputWriter.finish idCfg ([[5], [6, 7]].foldl (InputWriter.write_bytes idCfg)
      (InputWriter.new idCfg ⟨[1, 2], [0, 0]⟩)) =
      InputWriter.finish idCfg (InputWriter.write_bytes idCfg
        (InputWriter.new idCfg ⟨[1, 2], [0, 0]⟩) [[5], [6, 7]].flatten) :=
  farfalle_split_independence idCfg idCfg_reg ⟨[1, 2], [0, 0]⟩ rfl rfl [[5], [6, 7]]

/-- Equality on `Except` values is decidable when it is on both components
(used to evaluate the writer results on concrete inputs). -/
instance {e a : Type} [DecidableEq e] [DecidableEq a] : DecidableEq (Except e a) := fun x y =>
  match x, y with
  | .ok u, .ok v =>
    if h : u = v then .isTrue (by rw [h]) else .isFalse (by intro hh; cases hh; exact h rfl)
  | .error u, .error v =>
    if h : u = v then .isTrue (by rw [h]) else .isFalse (by intro hh; cases hh; exact h rfl)
  | .ok _, .error _ => .isFalse (by intro hh; cases hh)
  | .error _, .ok _ => .isFalse (by intro hh; cases hh)

/-! ## Claim C1: `BufMut::skip` -/

/-- C1: on the code as written, `BufMut::skip(n)` does *not* advance the
write cursor: `skip` calls `restrict(n..)`, which returns a new `BufMut`
that is immediately dropped, leaving `self.buf` untouched.  On a 5-byte
buffer, after `skip(2)` the capacity is still 5 (the claim requires 3) and
a subsequent `write_bytes([1, 1])` lands at offset 0 (the claim requires
offset 2).  This contradicts the crate's own tests `writer_skip_capacity`
and `writer_skip_write`. -/
theorem bufmut_skip_noop_divergence :
    (BufMut.skip ⟨[0, 0, 0, 0, 0], 0⟩ 2).2 = .ok () ∧
    (BufMut.skip ⟨[0, 0, 0, 0, 0], 0⟩ 2).1.capacity = 5 ∧
    ¬(BufMut.skip ⟨[0, 0, 0, 0, 0], 0⟩ 2).1.capacity = 5 - 2 ∧
    (BufMut.write_bytes (BufMut.skip ⟨[0, 0, 0, 0, 0], 0⟩ 2).1 [1, 1]).1.mem =
      [1, 1, 0, 0, 0] ∧
    ¬(BufMut.write_bytes (BufMut.skip ⟨[0, 0, 0, 0, 0], 0⟩ 2).1 [1, 1]).1.mem =
      [0, 0, 1, 1, 0] := by
  decide

/-! ## Claim C5: over-capacity writes fail without mutation -/

/-- C5: for `BufMut` and for both word-slice writers (copy and xor
flavours), a `skip(n)` or `write_bytes` of `n` bytes with
`n > capacity()` returns `WriteTooLargeError { requested = n, capacity }`
and returns the receiver unchanged. -/
theorem write_too_large_error_no_mutation :
    (∀ (b : BufMut) (n : Nat), b.capacity < n →
      BufMut.skip b n = (b, .error ⟨n, b.capacity⟩)) ∧
    (∀ (b : BufMut) (data : List Nat), b.capacity < data.length →
      BufMut.write_bytes b data = (b, .error ⟨data.length, b.capacity⟩)) ∧
    (∀ (fl : WFlavor) (w : LeW) (n : Nat), w.capacity < n →
      LeW.skip fl w n = (w, .error ⟨n, w.capacity⟩)) ∧
    (∀ (fl : WFlavor) (w : LeW) (data : List Nat), w.capacity < data.length →
      LeW.write_bytes fl w data = (w, .error ⟨data.length, w.capacity⟩)) := by
  refine ⟨?_, ?_, ?_, ?_⟩
  · intro b n h
    have hc : check_write_size n b.capacity = .error ⟨n, b.capacity⟩ := by
      simp only [check_write_size, if_neg (by omega : ¬(n ≤ b.capacity))]
    simp [BufMut.skip, hc]
  · intro b data h
    have hc : check_write_size data.length b.capacity = .error ⟨data.length, b.capacity⟩ := by
      simp only [check_write_size, if_neg (by omega : ¬(data.length ≤ b.capacity))]
    simp [BufMut.write_bytes, hc]
  · intro fl w n h
    have hc : check_write_size n w.capacity = .error ⟨n, w.capacity⟩ := by
      simp only [check_write_size, if_neg (by omega : ¬(n ≤ w.capacity))]
    simp [LeW.skip, hc]
  · intro fl w data h
    have hc : check_write_size data.length w.capacity = .error ⟨data.length, w.capacity⟩ := by
      simp only [check_write_size, if_neg (by omega : ¬(data.length ≤ w.capacity))]
    simp [LeW.write_bytes, hc]

/-- Witness for `write_too_large_error_no_mutation` at concrete writers. -/
theorem write_too_large_error_no_mutation_witness :
    BufMut.skip ⟨[0], 0⟩ 2 = (⟨[0], 0⟩, .error ⟨2, 1⟩) ∧
    BufMut.write_bytes ⟨[0], 0⟩ [9, 9] = (⟨[0], 0⟩, .error ⟨2, 1⟩) ∧
    LeW.skip .copy (LeW.new [0]) 5 = (LeW.new [0], .error ⟨5, 4⟩) ∧
    LeW.write_bytes .xorw (LeW.new [0]) [1, 2, 3, 4, 5] = (LeW.new [0], .error ⟨5, 4⟩) :=
  ⟨write_too_large_error_no_mutation.1 ⟨[0], 0⟩ 2 (by decide),
   write_too_large_error_no_mutation.2.1 ⟨[0], 0⟩ [9, 9] (by decide),
   write_too_large_error_no_mutation.2.2.1 .copy (LeW.new [0]) 5 (by decide),
   write_too_large_error_no_mutation.2.2.2 .xorw (LeW.new [0]) [1, 2, 3, 4, 5] (by decide)⟩

/-! ## Claim C7: Xoodoo round-constant use and zero-state vectors -/

/-- C7: `xoodoo::<R>` iterates over the `R` last entries of `ROUND_KEYS`,
and on the all-zero state the 12- and 6-round permutations produce
exactly the XKCP test vectors. -/
theorem xoodoo_round_keys_and_zero_vectors :
    xoodooUsedKeys 12 = ROUND_KEYS ∧
    xoodooUsedKeys 6 = ROUND_KEYS.drop 6 ∧
    xoodoo 12 (List.replicate 12 0) =
      [0x89D5D88D, 0xA963FCBF, 0x1B232D19, 0xFFA5A014, 0x36B18106, 0xAFC7C1FE,
       0xAEE57CBE, 0xA77540BD, 0x2E86E870, 0xFEF5B7C9, 0x8B4FADF2, 0x5E4F4062] ∧
    xoodoo 6 (List.replicate 12 0) =
      [0x28C9CEA3, 0xAD204F60, 0x2EC3D0D6, 0xF050C7C5, 0x08DC1225, 0x61992304,
       0x9E0D402D, 0x42D59B9B, 0x1E6114FC, 0x186EB697, 0x35DBBC7F, 0xA1F9104E] :=
  ⟨rfl, rfl, by decide, by decide⟩

/-! ## Claims C2 and C3: what `finish` actually absorbs -/

/-- The behaviour C3 ascribes to `finish` on a block with `filled` bytes
buffered: extend the block with the single pad byte `0x01` at offset
`filled`, absorb the padded block via §4.6.2 exactly once, then apply one
additional `RollC` to the key. -/
def specFinishOnce (cfg : FarCfg) (w : InputWriter) : Farfalle :=
  let r := Farfalle.process_block cfg w.far (setBytes w.block w.filled [1])
  { r.1 with key := cfg.rollC r.1.key }

/-- The behaviour C2 ascribes to `finish`: the absorbed final block is the
buffered tail, then the pad byte `0x01`, then zero bytes; absorb it once
and apply one additional `RollC`. -/
def specFinishZeroPad (cfg : FarCfg) (w : InputWriter) : Farfalle :=
  let padded := w.block.take w.filled ++ [1] ++ List.replicate (cfg.SIZE - w.filled - 1) 0
  let r := Farfalle.process_block cfg w.far padded
  { r.1 with key := cfg.rollC r.1.key }

/-- C3: at `filled = SIZE - 1` (here a 47-byte input to Xoofff, whose
state is 48 bytes), the pad byte completes the block inside
`write_bytes(&[0x01])`, which already absorbs it; `finish` then calls
`process_block` again unconditionally, absorbing the (now permuted)
scratch block a second time and rolling the key a third time.  The
resulting state differs from the single-absorption behaviour the claim
(and the Farfalle specification) describes. -/
theorem xoofff_finish_double_absorb_at_47 :
    (InputWriter.write_bytes xoofffCfg
      (InputWriter.new xoofffCfg (Farfalle.init_custom xoofffCfg []))
      (List.replicate 47 0)).filled = 47 ∧
    InputWriter.finish xoofffCfg (InputWriter.write_bytes xoofffCfg
      (InputWriter.new xoofffCfg (Farfalle.init_custom xoofffCfg []))
      (List.replicate 47 0)) ≠
    specFinishOnce xoofffCfg (InputWriter.write_bytes xoofffCfg
      (InputWriter.new xoofffCfg (Farfalle.init_custom xoofffCfg []))
      (List.replicate 47 0)) := by
  constructor
  · decide
  · decide

/-- C2: after absorbing 49 bytes (one full 48-byte block plus a 1-byte
tail) the scratch block's bytes beyond the tail hold the permuted
previous block, not zeroes, and `finish` absorbs them as they are: the
result differs from the zero-padded block the claim describes.  (`finish`
never overwrites the stale bytes.) -/
theorem xoofff_finish_stale_bytes_at_49 :
    (InputWriter.write_bytes xoofffCfg
      (InputWriter.new xoofffCfg (Farfalle.init_custom xoofffCfg []))
      (List.replicate 49 0)).filled = 1 ∧
    InputWriter.finish xoofffCfg (InputWriter.write_bytes xoofffCfg
      (InputWriter.new xoofffCfg (Farfalle.init_custom xoofffCfg []))
      (List.replicate 49 0)) ≠
    specFinishZeroPad xoofffCfg (InputWriter.write_bytes xoofffCfg
      (InputWriter.new xoofffCfg (Farfalle.init_custom xoofffCfg []))
      (List.replicate 49 0)) := by
  constructor
  · decide
  · decide

/-! ## Claim C6: the output reader is a snapshot -/

/-- C6: `output_reader` builds the generator from a clone of `k` and
`perm_D` of a clone of `a` (zero output buffer, nothing buffered), and
the Farfalle itself is returned unchanged; two readers taken at the same
accumulator state emit identical bytes for every requested length. -/
theorem output_reader_snapshot (cfg : FarCfg) (f : Farfalle) :
    (Farfalle.output_reader cfg f).2 = f ∧
    (Farfalle.output_reader cfg f).1 =
      { key := f.key, state := cfg.permD f.acc,
        output_buffer := zeroState cfg, buffered := 0 } ∧
    (∀ g1 g2 : OutputGen, g1 = (Farfalle.output_reader cfg f).1 →
      g2 = (Farfalle.output_reader cfg f).1 →
      ∀ n, OutputGen.write_to cfg g1 n = OutputGen.write_to cfg g2 n) := by
  refine ⟨rfl, rfl, ?_⟩
  intro g1 g2 h1 h2 n
  rw [h1, h2]

/-- Witness for `output_reader_snapshot` at a concrete Farfalle state. -/
theorem output_reader_snapshot_witness :
    OutputGen.write_to idCfg (Farfalle.output_reader idCfg ⟨[1, 2], [3, 4]⟩).1 3 =
      OutputGen.write_to idCfg (Farfalle.output_reader idCfg ⟨[1, 2], [3, 4]⟩).1 3 :=
  (output_reader_snapshot idCfg ⟨[1, 2], [3, 4]⟩).2.2 _ _ rfl rfl 3

/-! ## The output stream semantics (for C9 and C10) -/

namespace OutputGen

/-- The block `next_out_block` writes into `output_buffer` from state
`st`: `perm_e(st) ^ key`. -/
def blockAt (cfg : FarCfg) (key st : List Nat) : List Nat := xorS (cfg.permE st) key

/-- `k` applications of the rolling function E. -/
def iterRoll (cfg : FarCfg) : Nat → List Nat → List Nat
  | 0, s => s
  | k + 1, s => iterRoll cfg k (cfg.rollE s)

/-- The concatenation of the next `k` output blocks from state `st`. -/
def blocksCat (cfg : FarCfg) (key : List Nat) : Nat → List Nat → List Nat
  | 0, _ => []
  | k + 1, st => blockAt cfg key st ++ blocksCat cfg key k (cfg.rollE st)

/-- The still-unread tail of `output_buffer`: its last `buffered` bytes. -/
def pendingBytes (cfg : FarCfg) (g : OutputGen) : List Nat :=
  g.output_buffer.drop (cfg.SIZE - g.buffered)

/-- The next `n` bytes of the generator's output stream: the pending tail
followed by freshly produced blocks. -/
def streamBytes (cfg : FarCfg) (g : OutputGen) (n : Nat) : List Nat :=
  (pendingBytes cfg g ++ blocksCat cfg g.key n g.state).take n

/-- The output-reader invariant: `buffered ∈ [0, SIZE)` plus length facts. -/
def IR (cfg : FarCfg) (g : OutputGen) : Prop :=
  g.buffered < cfg.SIZE ∧ g.output_buffer.length = cfg.SIZE ∧
    g.state.length = cfg.SIZE ∧ g.key.length = cfg.SIZE

theorem iterRoll_succ_out (cfg : FarCfg) (k : Nat) (s : List Nat) :
    iterRoll cfg (k + 1) s = cfg.rollE (iterRoll cfg k s) := by
  induction k generalizing s with
  | zero => rfl
  | succ k ih =>
    show iterRoll cfg (k + 1) (cfg.rollE s) = _
    rw [ih (cfg.rollE s)]
    rfl

theorem iterRoll_len (cfg : FarCfg) (hreg : CfgReg cfg) (k : Nat) (s : List Nat)
    (h : s.length = cfg.SIZE) : (iterRoll cfg k s).length = cfg.SIZE := by
  induction k generalizing s with
  | zero => exact h
  | succ k ih => exact ih _ (hreg.rollE_len s h)

theorem blockAt_len (cfg : FarCfg) (hreg : CfgReg cfg) (key st : List Nat)
    (hk : key.length = cfg.SIZE) (hst : st.length = cfg.SIZE) :
    (blockAt cfg key st).length = cfg.SIZE := by
  rw [blockAt, xorS_length, hreg.permE_len st hst, hk]
  omega

theorem blocksCat_len (cfg : FarCfg) (hreg : CfgReg cfg) (key : List Nat)
    (hk : key.length = cfg.SIZE) : ∀ (k : Nat) (st : List Nat), st.length = cfg.SIZE →
      (blocksCat cfg key k st).length = k * cfg.SIZE := by
  intro k
  induction k with
  | zero => intro st _; simp [blocksCat]
  | succ k ih =>
    intro st hst
    show (blockAt cfg key st ++ blocksCat cfg key k (cfg.rollE st)).length = _
    rw [List.length_append, blockAt_len cfg hreg key st hk hst,
      ih _ (hreg.rollE_len st hst)]
    ring

theorem blocksCat_split (cfg : FarCfg) (key : List Nat) :
    ∀ (k j : Nat) (st : List Nat), blocksCat cfg key (k + j) st =
      blocksCat cfg key k st ++ blocksCat cfg key j (iterRoll cfg k st) := by
  intro k
  induction k with
  | zero =>
    intro j st
    simp [blocksCat, iterRoll]
  | succ k ih =>
    intro j st
    have h1 : k + 1 + j = (k + j) + 1 := by omega
    rw [h1]
    show blockAt cfg key st ++ blocksCat cfg key (k + j) (cfg.rollE st) = _
    rw [ih j (cfg.rollE st)]
    show _ = (blockAt cfg key st ++ blocksCat cfg key k (cfg.rollE st)) ++ _
    rw [List.append_assoc]
    rfl

theorem emitBlocks_fst (cfg : FarCfg) :
    ∀ (k : Nat) (g : OutputGen), (emitBlocks cfg k g).1 = blocksCat cfg g.key k g.state := by
  intro k
  induction k with
  | zero => intro g; rfl
  | succ k ih =>
    intro g
    show (next_out_block cfg g).output_buffer ++ (emitBlocks cfg k (next_out_block cfg g)).1 = _
    rw [ih (next_out_block cfg g)]
    rfl

theorem emitBlocks_snd_key (cfg : FarCfg) :
    ∀ (k : Nat) (g : OutputGen), (emitBlocks cfg k g).2.key = g.key := by
  intro k
  induction k with
  | zero => intro g; rfl
  | succ k ih => intro g; exact ih (next_out_block cfg g)

theorem emitBlocks_snd_buffered (cfg : FarCfg) :
    ∀ (k : Nat) (g : OutputGen), (emitBlocks cfg k g).2.buffered = g.buffered := by
  intro k
  induction k with
  | zero => intro g; rfl
  | succ k ih => intro g; exact ih (next_out_block cfg g)

theorem emitBlocks_snd_state (cfg : FarCfg) :
    ∀ (k : Nat) (g : OutputGen), (emitBlocks cfg k g).2.state = iterRoll cfg k g.state := by
  intro k
  induction k with
  | zero => intro g; rfl
  | succ k ih => intro g; exact ih (next_out_block cfg g)

theorem emitBlocks_snd_ob (cfg : FarCfg) :
    ∀ (k : Nat) (g : OutputGen), (emitBlocks cfg (k + 1) g).2.output_buffer =
      blockAt cfg g.key (iterRoll cfg k g.state) := by
  intro k
  induction k with
  | zero => intro g; rfl
  | succ k ih => intro g; exact ih (next_out_block cfg g)

theorem emitBlocks_snd_eq_skipBlocks (cfg : FarCfg) :
    ∀ (k : Nat) (g : OutputGen), (emitBlocks cfg k g).2 = skipBlocks cfg k g := by
  intro k
  induction k with
  | zero => intro g; rfl
  | succ k ih => intro g; exact ih (next_out_block cfg g)

end OutputGen

namespace OutputGen

theorem take_blocksCat_mul (cfg : FarCfg) (hreg : CfgReg cfg) (key : List Nat)
    (hk : key.length = cfg.SIZE) (q j : Nat) (st : List Nat) (hst : st.length = cfg.SIZE) :
    (blocksCat cfg key (q + j) st).take (q * cfg.SIZE) = blocksCat cfg key q st := by
  have hlen := blocksCat_len cfg hreg key hk q st hst
  rw [blocksCat_split, List.take_append_of_le_length (le_of_eq hlen.symm),
    List.take_of_length_le (le_of_eq hlen)]

theorem take_blocksCat_mul_add (cfg : FarCfg) (hreg : CfgReg cfg) (key : List Nat)
    (hk : key.length = cfg.SIZE) (q j r : Nat) (st : List Nat) (hst : st.length = cfg.SIZE)
    (hr : r < cfg.SIZE) :
    (blocksCat cfg key (q + (j + 1)) st).take (q * cfg.SIZE + r) =
      blocksCat cfg key q st ++ (blockAt cfg key (iterRoll cfg q st)).take r := by
  have hlen := blocksCat_len cfg hreg key hk q st hst
  rw [blocksCat_split, List.take_append_eq_append_take,
    List.take_of_length_le (by rw [hlen]; omega)]
  congr 1
  have h1 : q * cfg.SIZE + r - (blocksCat cfg key q st).length = r := by rw [hlen]; omega
  rw [h1]
  show (blockAt cfg key (iterRoll cfg q st) ++
    blocksCat cfg key j (cfg.rollE (iterRoll cfg q st))).take r = _
  rw [List.take_append_of_le_length (by
    rw [blockAt_len cfg hreg key _ hk (iterRoll_len cfg hreg q st hst)]; omega)]

theorem drop_blocksCat_mul (cfg : FarCfg) (hreg : CfgReg cfg) (key : List Nat)
    (hk : key.length = cfg.SIZE) (q j : Nat) (st : List Nat) (hst : st.length = cfg.SIZE) :
    (blocksCat cfg key (q + j) st).drop (q * cfg.SIZE) =
      blocksCat cfg key j (iterRoll cfg q st) := by
  have hlen := blocksCat_len cfg hreg key hk q st hst
  rw [blocksCat_split, List.drop_left' hlen]

theorem take_blocksCat_congr (cfg : FarCfg) (hreg : CfgReg cfg) (key : List Nat)
    (hk : key.length = cfg.SIZE) (st : List Nat) (hst : st.length = cfg.SIZE)
    (i k K : Nat) (hik : i ≤ k * cfg.SIZE) (hkK : k ≤ K) :
    (blocksCat cfg key K st).take i = (blocksCat cfg key k st).take i := by
  have hlen := blocksCat_len cfg hreg key hk k st hst
  rw [show K = k + (K - k) from by omega, blocksCat_split,
    List.take_append_of_le_length (by rw [hlen]; omega)]

/-- The emitted bytes of `writeCore`: the first `n1` bytes of the block
stream from `g1`'s state (`K` is any block budget covering `n1`). -/
theorem writeCore_emits (cfg : FarCfg) (hreg : CfgReg cfg) (g1 : OutputGen) (n1 K : Nat)
    (hst : g1.state.length = cfg.SIZE) (hkey : g1.key.length = cfg.SIZE) (hK : n1 ≤ K) :
    (writeCore cfg g1 n1).1 = (blocksCat cfg g1.key K g1.state).take n1 := by
  have hdm := Nat.div_add_mod n1 cfg.SIZE
  have hmod : n1 % cfg.SIZE < cfg.SIZE := Nat.mod_lt _ hreg.size_pos
  have hnb : (n1 - n1 % cfg.SIZE) / cfg.SIZE = n1 / cfg.SIZE := by
    have h1 : n1 - n1 % cfg.SIZE = cfg.SIZE * (n1 / cfg.SIZE) := by omega
    rw [h1, Nat.mul_div_cancel_left _ hreg.size_pos]
  have hnble : n1 / cfg.SIZE ≤ cfg.SIZE * (n1 / cfg.SIZE) :=
    Nat.le_mul_of_pos_left _ hreg.size_pos
  have hcomm : cfg.SIZE * (n1 / cfg.SIZE) = (n1 / cfg.SIZE) * cfg.SIZE := Nat.mul_comm _ _
  by_cases hr : n1 % cfg.SIZE = 0
  · have h1 : (writeCore cfg g1 n1).1 = (emitBlocks cfg ((n1 - n1 % cfg.SIZE) / cfg.SIZE) g1).1 := by
      unfold writeCore
      rw [if_neg (by omega)]
    rw [h1, hnb, emitBlocks_fst]
    have hn1 : n1 = (n1 / cfg.SIZE) * cfg.SIZE := by omega
    conv_rhs => rw [hn1]
    rw [show K = n1 / cfg.SIZE + (K - n1 / cfg.SIZE) from by omega]
    exact (take_blocksCat_mul cfg hreg g1.key hkey _ _ g1.state hst).symm
  · have h1 : (writeCore cfg g1 n1).1 =
        (emitBlocks cfg ((n1 - n1 % cfg.SIZE) / cfg.SIZE) g1).1 ++
          (next_out_block cfg
            (emitBlocks cfg ((n1 - n1 % cfg.SIZE) / cfg.SIZE) g1).2).output_buffer.take
            (n1 % cfg.SIZE) := by
      unfold writeCore
      rw [if_pos (by omega)]
    have hob : (next_out_block cfg
        (emitBlocks cfg ((n1 - n1 % cfg.SIZE) / cfg.SIZE) g1).2).output_buffer =
        blockAt cfg g1.key (iterRoll cfg (n1 / cfg.SIZE) g1.state) := by
      show blockAt cfg (emitBlocks cfg ((n1 - n1 % cfg.SIZE) / cfg.SIZE) g1).2.key
        (emitBlocks cfg ((n1 - n1 % cfg.SIZE) / cfg.SIZE) g1).2.state = _
      rw [emitBlocks_snd_key, emitBlocks_snd_state, hnb]
    rw [h1, hob, hnb, emitBlocks_fst]
    have hlt : n1 / cfg.SIZE < K := by omega
    have hn1 : n1 = (n1 / cfg.SIZE) * cfg.SIZE + n1 % cfg.SIZE := by omega
    conv_rhs => rw [hn1]
    rw [show K = n1 / cfg.SIZE + ((K - n1 / cfg.SIZE - 1) + 1) from by omega]
    exact (take_blocksCat_mul_add cfg hreg g1.key hkey _ _ _ g1.state hst hmod).symm

end OutputGen

namespace OutputGen

theorem writeCore_zero (cfg : FarCfg) (g1 : OutputGen) : writeCore cfg g1 0 = ([], g1) := by
  simp [writeCore, emitBlocks]

theorem writeCore_snd_key (cfg : FarCfg) (g1 : OutputGen) (n1 : Nat) :
    (writeCore cfg g1 n1).2.key = g1.key := by
  unfold writeCore
  by_cases hr : n1 % cfg.SIZE = 0
  · rw [if_neg (by omega)]
    exact emitBlocks_snd_key cfg _ g1
  · rw [if_pos (by omega)]
    show (emitBlocks cfg _ g1).2.key = g1.key
    exact emitBlocks_snd_key cfg _ g1

theorem writeCore_snd_state_zero (cfg : FarCfg) (g1 : OutputGen) (n1 : Nat)
    (hr : n1 % cfg.SIZE = 0) :
    (writeCore cfg g1 n1).2.state = iterRoll cfg (n1 / cfg.SIZE) g1.state := by
  unfold writeCore
  rw [if_neg (by omega)]
  have h1 : (n1 - n1 % cfg.SIZE) / cfg.SIZE = n1 / cfg.SIZE := by rw [hr, Nat.sub_zero]
  rw [h1]
  exact emitBlocks_snd_state cfg _ g1

theorem writeCore_snd_state_pos (cfg : FarCfg) (g1 : OutputGen) (n1 : Nat)
    (hsz : 0 < cfg.SIZE) (hr : ¬(n1 % cfg.SIZE = 0)) :
    (writeCore cfg g1 n1).2.state = iterRoll cfg (n1 / cfg.SIZE + 1) g1.state := by
  unfold writeCore
  rw [if_pos (by omega)]
  show cfg.rollE (emitBlocks cfg ((n1 - n1 % cfg.SIZE) / cfg.SIZE) g1).2.state = _
  rw [emitBlocks_snd_state, iterRoll_succ_out]
  congr 2
  have hdm := Nat.div_add_mod n1 cfg.SIZE
  have h1 : n1 - n1 % cfg.SIZE = cfg.SIZE * (n1 / cfg.SIZE) := by omega
  rw [h1, Nat.mul_div_cancel_left _ hsz]

theorem writeCore_snd_buffered_zero (cfg : FarCfg) (g1 : OutputGen) (n1 : Nat)
    (hr : n1 % cfg.SIZE = 0) : (writeCore cfg g1 n1).2.buffered = g1.buffered := by
  unfold writeCore
  rw [if_neg (by omega)]
  exact emitBlocks_snd_buffered cfg _ g1

theorem writeCore_snd_buffered_pos (cfg : FarCfg) (g1 : OutputGen) (n1 : Nat)
    (hr : ¬(n1 % cfg.SIZE = 0)) :
    (writeCore cfg g1 n1).2.buffered = cfg.SIZE - n1 % cfg.SIZE := by
  unfold writeCore
  rw [if_pos (by omega)]

theorem writeCore_snd_ob_pos (cfg : FarCfg) (g1 : OutputGen) (n1 : Nat)
    (hsz : 0 < cfg.SIZE) (hr : ¬(n1 % cfg.SIZE = 0)) :
    (writeCore cfg g1 n1).2.output_buffer =
      blockAt cfg g1.key (iterRoll cfg (n1 / cfg.SIZE) g1.state) := by
  unfold writeCore
  rw [if_pos (by omega)]
  show blockAt cfg (emitBlocks cfg ((n1 - n1 % cfg.SIZE) / cfg.SIZE) g1).2.key
    (emitBlocks cfg ((n1 - n1 % cfg.SIZE) / cfg.SIZE) g1).2.state = _
  rw [emitBlocks_snd_key, emitBlocks_snd_state]
  congr 2
  have hdm := Nat.div_add_mod n1 cfg.SIZE
  have h1 : n1 - n1 % cfg.SIZE = cfg.SIZE * (n1 / cfg.SIZE) := by omega
  rw [h1, Nat.mul_div_cancel_left _ hsz]

end OutputGen

namespace OutputGen

theorem writeCore_snd_ob_len (cfg : FarCfg) (hreg : CfgReg cfg) (g1 : OutputGen) (n1 : Nat)
    (hob : g1.output_buffer.length = cfg.SIZE) (hst : g1.state.length = cfg.SIZE)
    (hkey : g1.key.length = cfg.SIZE) :
    (writeCore cfg g1 n1).2.output_buffer.length = cfg.SIZE := by
  by_cases hr : n1 % cfg.SIZE = 0
  · have h1 : (writeCore cfg g1 n1).2 = (emitBlocks cfg ((n1 - n1 % cfg.SIZE) / cfg.SIZE) g1).2 := by
      unfold writeCore
      rw [if_neg (by omega)]
    rw [h1]
    cases hnb : (n1 - n1 % cfg.SIZE) / cfg.SIZE with
    | zero => exact hob
    | succ k =>
      rw [emitBlocks_snd_ob]
      exact blockAt_len cfg hreg _ _ hkey (iterRoll_len cfg hreg k _ hst)
  · rw [writeCore_snd_ob_pos cfg g1 n1 hreg.size_pos hr]
    exact blockAt_len cfg hreg _ _ hkey (iterRoll_len cfg hreg _ _ hst)

theorem writeCore_IR (cfg : FarCfg) (hreg : CfgReg cfg) (g1 : OutputGen) (n1 : Nat)
    (hbuf : g1.buffered < cfg.SIZE) (hob : g1.output_buffer.length = cfg.SIZE)
    (hst : g1.state.length = cfg.SIZE) (hkey : g1.key.length = cfg.SIZE) :
    IR cfg ((writeCore cfg g1 n1).2) := by
  refine ⟨?_, writeCore_snd_ob_len cfg hreg g1 n1 hob hst hkey, ?_, ?_⟩
  · by_cases hr : n1 % cfg.SIZE = 0
    · rw [writeCore_snd_buffered_zero cfg g1 n1 hr]
      exact hbuf
    · rw [writeCore_snd_buffered_pos cfg g1 n1 hr]
      omega
  · by_cases hr : n1 % cfg.SIZE = 0
    · rw [writeCore_snd_state_zero cfg g1 n1 hr]
      exact iterRoll_len cfg hreg _ _ hst
    · rw [writeCore_snd_state_pos cfg g1 n1 hreg.size_pos hr]
      exact iterRoll_len cfg hreg _ _ hst
  · rw [writeCore_snd_key]
    exact hkey

/-- Claim C9's reader-validity core (emission form of `write_to`): the
bytes `write_to` emits are exactly the next `n` stream bytes — the
still-buffered tail of `output_buffer` first, then fresh blocks. -/
theorem write_to_emits (cfg : FarCfg) (hreg : CfgReg cfg) (g : OutputGen)
    (hIR : IR cfg g) (n : Nat) :
    (write_to cfg g n).1 = streamBytes cfg g n := by
  obtain ⟨hbuf, hob, hst, hkey⟩ := hIR
  have hplen : (pendingBytes cfg g).length = g.buffered := by
    rw [pendingBytes, List.length_drop, hob]
    omega
  by_cases hb : g.buffered ≠ 0
  · have h1 : (write_to cfg g n).1 =
        (pendingBytes cfg g).take (min g.buffered n) ++
          (writeCore cfg { g with buffered := g.buffered - min g.buffered n }
            (n - min g.buffered n)).1 := by
      unfold write_to
      rw [if_pos hb]
      rfl
    rw [h1, writeCore_emits cfg hreg
      { g with buffered := g.buffered - min g.buffered n }
      (n - min g.buffered n) n hst hkey (by omega)]
    show (pendingBytes cfg g).take (min g.buffered n) ++
        (blocksCat cfg g.key n g.state).take (n - min g.buffered n) = _
    rw [streamBytes]
    by_cases hcase : n ≤ g.buffered
    · have h2 : min g.buffered n = n := by omega
      rw [h2, Nat.sub_self, List.take_zero, List.append_nil,
        List.take_append_of_le_length (by omega)]
    · have h2 : min g.buffered n = g.buffered := by omega
      rw [h2]
      have h4 : (pendingBytes cfg g).take g.buffered = pendingBytes cfg g :=
        List.take_of_length_le (by omega)
      have h5 : (pendingBytes cfg g).take n = pendingBytes cfg g :=
        List.take_of_length_le (by omega)
      rw [h4, List.take_append_eq_append_take, h5]
      congr 2
      omega
  · have hb0 : g.buffered = 0 := by omega
    have h1 : (write_to cfg g n).1 = (writeCore cfg g n).1 := by
      unfold write_to
      rw [if_neg hb]
    have hpe : pendingBytes cfg g = [] := by
      rw [pendingBytes, hb0, Nat.sub_zero]
      exact List.drop_of_length_le (le_of_eq hob)
    rw [h1, streamBytes, hpe, List.nil_append,
      writeCore_emits cfg hreg g n n hst hkey le_rfl]

theorem write_to_IR (cfg : FarCfg) (hreg : CfgReg cfg) (g : OutputGen)
    (hIR : IR cfg g) (n : Nat) : IR cfg ((write_to cfg g n).2) := by
  obtain ⟨hbuf, hob, hst, hkey⟩ := hIR
  by_cases hb : g.buffered ≠ 0
  · have h1 : (write_to cfg g n).2 =
        (writeCore cfg { g with buffered := g.buffered - min g.buffered n }
          (n - min g.buffered n)).2 := by
      unfold write_to
      rw [if_pos hb]
    rw [h1]
    exact writeCore_IR cfg hreg _ _ (by show g.buffered - min g.buffered n < cfg.SIZE; omega)
      hob hst hkey
  · have h1 : (write_to cfg g n).2 = (writeCore cfg g n).2 := by
      unfold write_to
      rw [if_neg hb]
    rw [h1]
    exact writeCore_IR cfg hreg g n hbuf hob hst hkey

end OutputGen

namespace OutputGen

/-- The stream a `writeCore` leaves behind: its next `m` bytes are the
stream bytes of `g1` from position `n1` on (`K` any budget covering
`n1 + m`). -/
theorem writeCore_stream_after (cfg : FarCfg) (hreg : CfgReg cfg) (g1 : OutputGen)
    (n1 m K : Nat) (hob : g1.output_buffer.length = cfg.SIZE)
    (hst : g1.state.length = cfg.SIZE) (hkey : g1.key.length = cfg.SIZE)
    (hbuf0 : g1.buffered = 0) (hK : n1 + m ≤ K) :
    streamBytes cfg ((writeCore cfg g1 n1).2) m =
      ((blocksCat cfg g1.key K g1.state).drop n1).take m := by
  have hsz := hreg.size_pos
  have hdm := Nat.div_add_mod n1 cfg.SIZE
  have hnble : n1 / cfg.SIZE ≤ cfg.SIZE * (n1 / cfg.SIZE) := Nat.le_mul_of_pos_left _ hsz
  have hcomm : cfg.SIZE * (n1 / cfg.SIZE) = (n1 / cfg.SIZE) * cfg.SIZE := Nat.mul_comm _ _
  have hmm : m ≤ m * cfg.SIZE := Nat.le_mul_of_pos_right _ hsz
  by_cases hr : n1 % cfg.SIZE = 0
  · have hbuf' : (writeCore cfg g1 n1).2.buffered = 0 := by
      rw [writeCore_snd_buffered_zero cfg g1 n1 hr, hbuf0]
    have hob' := writeCore_snd_ob_len cfg hreg g1 n1 hob hst hkey
    have hpend : pendingBytes cfg (writeCore cfg g1 n1).2 = [] := by
      rw [pendingBytes, hbuf', Nat.sub_zero]
      exact List.drop_of_length_le (le_of_eq hob')
    rw [streamBytes, hpend, List.nil_append, writeCore_snd_key,
      writeCore_snd_state_zero cfg g1 n1 hr]
    have hdrop : (blocksCat cfg g1.key K g1.state).drop n1 =
        blocksCat cfg g1.key (K - n1 / cfg.SIZE) (iterRoll cfg (n1 / cfg.SIZE) g1.state) := by
      have hn1 : n1 = n1 / cfg.SIZE * cfg.SIZE := by omega
      conv_lhs => rw [hn1, show K = n1 / cfg.SIZE + (K - n1 / cfg.SIZE) from by omega]
      exact drop_blocksCat_mul cfg hreg g1.key hkey _ _ g1.state hst
    rw [hdrop]
    exact (take_blocksCat_congr cfg hreg g1.key hkey _
      (iterRoll_len cfg hreg _ _ hst) m m (K - n1 / cfg.SIZE) (by omega) (by omega)).symm
  · have hremlt : n1 % cfg.SIZE < cfg.SIZE := Nat.mod_lt _ hsz
    have hnblt : n1 / cfg.SIZE < n1 := by omega
    have hbuf' := writeCore_snd_buffered_pos cfg g1 n1 hr
    have hob' := writeCore_snd_ob_pos cfg g1 n1 hsz hr
    have hpend : pendingBytes cfg (writeCore cfg g1 n1).2 =
        (blockAt cfg g1.key (iterRoll cfg (n1 / cfg.SIZE) g1.state)).drop (n1 % cfg.SIZE) := by
      rw [pendingBytes, hbuf', hob',
        show cfg.SIZE - (cfg.SIZE - n1 % cfg.SIZE) = n1 % cfg.SIZE from by omega]
    rw [streamBytes, hpend, writeCore_snd_key, writeCore_snd_state_pos cfg g1 n1 hsz hr]
    have hblen : (blockAt cfg g1.key (iterRoll cfg (n1 / cfg.SIZE) g1.state)).length =
        cfg.SIZE :=
      blockAt_len cfg hreg _ _ hkey (iterRoll_len cfg hreg _ _ hst)
    have hdrop : (blocksCat cfg g1.key K g1.state).drop n1 =
        (blockAt cfg g1.key (iterRoll cfg (n1 / cfg.SIZE) g1.state)).drop (n1 % cfg.SIZE) ++
          blocksCat cfg g1.key (K - n1 / cfg.SIZE - 1)
            (iterRoll cfg (n1 / cfg.SIZE + 1) g1.state) := by
      have hn1 : n1 = n1 / cfg.SIZE * cfg.SIZE + n1 % cfg.SIZE := by omega
      conv_lhs =>
        rw [hn1, ← List.drop_drop,
          show K = n1 / cfg.SIZE + ((K - n1 / cfg.SIZE - 1) + 1) from by omega,
          drop_blocksCat_mul cfg hreg g1.key hkey _ _ g1.state hst]
      show ((blockAt cfg g1.key (iterRoll cfg (n1 / cfg.SIZE) g1.state) ++
        blocksCat cfg g1.key (K - n1 / cfg.SIZE - 1)
          (cfg.rollE (iterRoll cfg (n1 / cfg.SIZE) g1.state))).drop (n1 % cfg.SIZE)) = _
      rw [List.drop_append_of_le_length (by rw [hblen]; omega), ← iterRoll_succ_out]
    rw [hdrop]
    simp only [List.take_append_eq_append_take]
    congr 1
    exact (take_blocksCat_congr cfg hreg g1.key hkey _
      (iterRoll_len cfg hreg _ _ hst) _ m (K - n1 / cfg.SIZE - 1)
      (by omega) (by omega)).symm

/-- Claim C10's bookkeeping core: the stream of the generator `write_to`
returns continues the original stream at position `n`. -/
theorem write_to_stream_after (cfg : FarCfg) (hreg : CfgReg cfg) (g : OutputGen)
    (hIR : IR cfg g) (n m : Nat) :
    streamBytes cfg ((write_to cfg g n).2) m = (streamBytes cfg g (n + m)).drop n := by
  obtain ⟨hbuf, hob, hst, hkey⟩ := hIR
  have hsz := hreg.size_pos
  have hmm : m ≤ m * cfg.SIZE := Nat.le_mul_of_pos_right _ hsz
  have hplen : (pendingBytes cfg g).length = g.buffered := by
    rw [pendingBytes, List.length_drop, hob]
    omega
  have hRHS : (streamBytes cfg g (n + m)).drop n =
      ((pendingBytes cfg g ++ blocksCat cfg g.key (n + m) g.state).drop n).take m := by
    rw [streamBytes, List.drop_take, show n + m - n = m from by omega]
  rw [hRHS]
  by_cases hb : g.buffered ≠ 0
  · have h1 : (write_to cfg g n).2 =
        (writeCore cfg { g with buffered := g.buffered - min g.buffered n }
          (n - min g.buffered n)).2 := by
      unfold write_to
      rw [if_pos hb]
    rw [h1]
    by_cases hcase : n ≤ g.buffered
    · have hmin : min g.buffered n = n := by omega
      rw [hmin, Nat.sub_self, writeCore_zero]
      show streamBytes cfg { g with buffered := g.buffered - n } m = _
      have hp1 : pendingBytes cfg { g with buffered := g.buffered - n } =
          (pendingBytes cfg g).drop n := by
        show g.output_buffer.drop (cfg.SIZE - (g.buffered - n)) = _
        rw [pendingBytes, List.drop_drop,
          show cfg.SIZE - g.buffered + n = cfg.SIZE - (g.buffered - n) from by omega]
      rw [streamBytes, hp1]
      show ((pendingBytes cfg g).drop n ++ blocksCat cfg g.key m g.state).take m = _
      rw [List.drop_append_of_le_length (by omega)]
      simp only [List.take_append_eq_append_take]
      congr 1
      exact (take_blocksCat_congr cfg hreg g.key hkey g.state hst _ m (n + m)
        (by omega) (by omega)).symm
    · have hmin : min g.buffered n = g.buffered := by omega
      rw [hmin, Nat.sub_self]
      rw [writeCore_stream_after cfg hreg { g with buffered := 0 } (n - g.buffered) m
        (n + m) hob hst hkey rfl (by omega)]
      have hdr : (pendingBytes cfg g ++ blocksCat cfg g.key (n + m) g.state).drop n =
          (blocksCat cfg g.key (n + m) g.state).drop (n - g.buffered) := by
        rw [List.drop_append_eq_append_drop, List.drop_of_length_le (by omega),
          List.nil_append, hplen]
      rw [hdr]
  · have hb0 : g.buffered = 0 := by omega
    have h1 : (write_to cfg g n).2 = (writeCore cfg g n).2 := by
      unfold write_to
      rw [if_neg hb]
    rw [h1, writeCore_stream_after cfg hreg g n m (n + m) hob hst hkey hb0 le_rfl]
    have hpe : pendingBytes cfg g = [] := by
      rw [pendingBytes, hb0, Nat.sub_zero]
      exact List.drop_of_length_le (le_of_eq hob)
    rw [hpe, List.nil_append]

end OutputGen

namespace OutputGen

theorem streamBytes_prefix (cfg : FarCfg) (hreg : CfgReg cfg) (g : OutputGen)
    (hst : g.state.length = cfg.SIZE) (hkey : g.key.length = cfg.SIZE)
    (n K : Nat) (hn : n ≤ K) :
    streamBytes cfg g n = (streamBytes cfg g K).take n := by
  rw [streamBytes, streamBytes, List.take_take, show min n K = n from by omega]
  simp only [List.take_append_eq_append_take]
  congr 1
  have hnn : n ≤ n * cfg.SIZE := Nat.le_mul_of_pos_right _ hreg.size_pos
  exact (take_blocksCat_congr cfg hreg g.key hkey g.state hst _ n K (by omega) hn).symm

theorem skipCore_eq_writeCore_snd (cfg : FarCfg) (g1 : OutputGen) (n1 : Nat) :
    skipCore cfg g1 n1 = (writeCore cfg g1 n1).2 := by
  unfold skipCore writeCore
  by_cases hr : n1 % cfg.SIZE = 0
  · rw [if_neg (by omega), if_neg (by omega)]
    exact (emitBlocks_snd_eq_skipBlocks cfg _ g1).symm
  · rw [if_pos (by omega), if_pos (by omega)]
    rw [emitBlocks_snd_eq_skipBlocks]

theorem skip_eq_write_to_snd (cfg : FarCfg) (g : OutputGen) (n : Nat) :
    skip cfg g n = (write_to cfg g n).2 := by
  unfold skip write_to
  by_cases hb : g.buffered ≠ 0
  · rw [if_pos hb, if_pos hb]
    exact skipCore_eq_writeCore_snd cfg _ _
  · rw [if_neg hb, if_neg hb]
    exact skipCore_eq_writeCore_snd cfg g n

theorem skip_IR (cfg : FarCfg) (hreg : CfgReg cfg) (g : OutputGen)
    (hIR : IR cfg g) (n : Nat) : IR cfg (skip cfg g n) := by
  rw [skip_eq_write_to_snd]
  exact write_to_IR cfg hreg g hIR n

end OutputGen

/-- An abstract operation on an input writer: a `write_bytes` call or a
`skip` call. -/
inductive WriterOp where
  | wbytes : List Nat → WriterOp
  | wskip : Nat → WriterOp

def applyWriterOp (cfg : FarCfg) (w : InputWriter) : WriterOp → InputWriter
  | .wbytes data => InputWriter.write_bytes cfg w data
  | .wskip n => InputWriter.skip w n

/-- An abstract operation on an output reader: a `write_to` call (the
target writer abstracted away) or a `skip` call. -/
inductive ReaderOp where
  | rwrite : Nat → ReaderOp
  | rskip : Nat → ReaderOp

def applyReaderOp (cfg : FarCfg) (g : OutputGen) : ReaderOp → OutputGen
  | .rwrite n => (OutputGen.write_to cfg g n).2
  | .rskip n => OutputGen.skip cfg g n

theorem foldl_applyWriterOp_Inv (cfg : FarCfg) (hreg : CfgReg cfg) (w : InputWriter)
    (hInv : InputWriter.Inv cfg w) (ops : List WriterOp) :
    InputWriter.Inv cfg (ops.foldl (applyWriterOp cfg) w) := by
  induction ops generalizing w with
  | nil => exact hInv
  | cons op ops ih =>
    refine ih (applyWriterOp cfg w op) ?_
    cases op with
    | wbytes data => exact InputWriter.write_bytes_Inv cfg hreg w data hInv
    | wskip n => exact hInv

theorem foldl_applyReaderOp_IR (cfg : FarCfg) (hreg : CfgReg cfg) (g : OutputGen)
    (hIR : OutputGen.IR cfg g) (rops : List ReaderOp) :
    OutputGen.IR cfg (rops.foldl (applyReaderOp cfg) g) := by
  induction rops generalizing g with
  | nil => exact hIR
  | cons op rops ih =>
    refine ih (applyReaderOp cfg g op) ?_
    cases op with
    | rwrite n => exact OutputGen.write_to_IR cfg hreg g hIR n
    | rskip n => exact OutputGen.skip_IR cfg hreg g hIR n

/-- C9: state invariants.  After any sequence of `write_bytes`/`skip`
calls a Farfalle input writer keeps `filled < SIZE`; after any sequence
of `write_to`/`skip` calls an output reader keeps `buffered ∈ [0, SIZE)`
(and the other state-size facts), and the bytes a further `write_to`
emits are exactly the next stream bytes — the last `buffered` bytes of
`output_buffer` first (`streamBytes` starts with `pendingBytes`, the
pending tail), then fresh blocks. -/
theorem farfalle_state_invariants (cfg : FarCfg) (hreg : CfgReg cfg) :
    (∀ f : Farfalle, f.key.length = cfg.SIZE → f.acc.length = cfg.SIZE →
      ∀ ops : List WriterOp,
        (ops.foldl (applyWriterOp cfg) (InputWriter.new cfg f)).filled < cfg.SIZE) ∧
    (∀ g : OutputGen, OutputGen.IR cfg g → ∀ rops : List ReaderOp,
      OutputGen.IR cfg (rops.foldl (applyReaderOp cfg) g) ∧
      ∀ n, (OutputGen.write_to cfg (rops.foldl (applyReaderOp cfg) g) n).1 =
        OutputGen.streamBytes cfg (rops.foldl (applyReaderOp cfg) g) n) := by
  constructor
  · intro f hk ha ops
    exact (foldl_applyWriterOp_Inv cfg hreg _ (InputWriter.new_Inv cfg hreg f hk ha) ops).1
  · intro g hIR rops
    have hIR2 := foldl_applyReaderOp_IR cfg hreg g hIR rops
    exact ⟨hIR2, fun n => OutputGen.write_to_emits cfg hreg _ hIR2 n⟩

/-- Witness for `farfalle_state_invariants` at a concrete config and
operation sequences. -/
theorem farfalle_state_invariants_witness :
    (([WriterOp.wbytes [9, 8, 7], WriterOp.wskip 5].foldl (applyWriterOp idCfg)
      (InputWriter.new idCfg ⟨[1, 2], [0, 0]⟩)).filled < idCfg.SIZE) ∧
    OutputGen.IR idCfg ([ReaderOp.rwrite 3, ReaderOp.rskip 1].foldl (applyReaderOp idCfg)
      ⟨[1, 2], [3, 4], [0, 0], 0⟩) ∧
    (OutputGen.write_to idCfg ([ReaderOp.rwrite 3, ReaderOp.rskip 1].foldl
      (applyReaderOp idCfg) ⟨[1, 2], [3, 4], [0, 0], 0⟩) 4).1 =
      OutputGen.streamBytes idCfg ([ReaderOp.rwrite 3, ReaderOp.rskip 1].foldl
        (applyReaderOp idCfg) ⟨[1, 2], [3, 4], [0, 0], 0⟩) 4 :=
  have h := farfalle_state_invariants idCfg idCfg_reg
  have hIR : OutputGen.IR idCfg ⟨[1, 2], [3, 4], [0, 0], 0⟩ :=
    ⟨by decide, by decide, by decide, by decide⟩
  ⟨h.1 ⟨[1, 2], [0, 0]⟩ rfl rfl [WriterOp.wbytes [9, 8, 7], WriterOp.wskip 5],
   (h.2 ⟨[1, 2], [3, 4], [0, 0], 0⟩ hIR [ReaderOp.rwrite 3, ReaderOp.rskip 1]).1,
   (h.2 ⟨[1, 2], [3, 4], [0, 0], 0⟩ hIR [ReaderOp.rwrite 3, ReaderOp.rskip 1]).2 4⟩

/-- C10: output-stream chunking is associative — reading `n` bytes and
then `m` bytes from a Farfalle output reader emits exactly the same
`n + m` bytes as a single `write_to` of `n + m` from the same reader
state; the buffered tail resumes mid-block at the right offset. -/
theorem output_write_to_chunking (cfg : FarCfg) (hreg : CfgReg cfg) (g : OutputGen)
    (hIR : OutputGen.IR cfg g) (n m : Nat) :
    (OutputGen.write_to cfg g n).1 ++
      (OutputGen.write_to cfg (OutputGen.write_to cfg g n).2 m).1 =
      (OutputGen.write_to cfg g (n + m)).1 := by
  have hIR1 := OutputGen.write_to_IR cfg hreg g hIR n
  rw [OutputGen.write_to_emits cfg hreg g hIR n,
    OutputGen.write_to_emits cfg hreg _ hIR1 m,
    OutputGen.write_to_emits cfg hreg g hIR (n + m),
    OutputGen.write_to_stream_after cfg hreg g hIR n m,
    OutputGen.streamBytes_prefix cfg hreg g hIR.2.2.1 hIR.2.2.2 n (n + m) (by omega),
    List.take_append_drop]

/-- Witness for `output_write_to_chunking` at a concrete reader. -/
theorem output_write_to_chunking_witness :
    (OutputGen.write_to idCfg ⟨[1, 2], [3, 4], [0, 0], 0⟩ 3).1 ++
      (OutputGen.write_to idCfg
        (OutputGen.write_to idCfg ⟨[1, 2], [3, 4], [0, 0], 0⟩ 3).2 2).1 =
      (OutputGen.write_to idCfg ⟨[1, 2], [3, 4], [0, 0], 0⟩ (3 + 2)).1 :=
  output_write_to_chunking idCfg idCfg_reg ⟨[1, 2], [3, 4], [0, 0], 0⟩
    ⟨by decide, by decide, by decide, by decide⟩ 3 2

/-! ## Serialization lemmas for the word-slice writer (claim C8) -/

theorem wordsToBytes_append (x y : List Nat) :
    wordsToBytes (x ++ y) = wordsToBytes x ++ wordsToBytes y := by
  induction x with
  | nil => rfl
  | cons w ws ih =>
    show toLe4 w ++ wordsToBytes (ws ++ y) = (toLe4 w ++ wordsToBytes ws) ++ wordsToBytes y
    rw [ih, List.append_assoc]

theorem wordsToBytes_length (x : List Nat) : (wordsToBytes x).length = 4 * x.length := by
  induction x with
  | nil => rfl
  | cons w ws ih =>
    show (toLe4 w ++ wordsToBytes ws).length = _
    rw [List.length_append, length_toLe4, ih, List.length_cons]
    ring

theorem wordsToBytes_drop (q : Nat) : ∀ (x : List Nat),
    (wordsToBytes x).drop (4 * q) = wordsToBytes (x.drop q) := by
  induction q with
  | zero => intro x; rfl
  | succ q ih =>
    intro x
    cases x with
    | nil => simp [wordsToBytes]
    | cons w ws =>
      show (toLe4 w ++ wordsToBytes ws).drop (4 * (q + 1)) = wordsToBytes (ws.drop q)
      have h4 : 4 * (q + 1) = (toLe4 w).length + 4 * q := by rw [length_toLe4]; ring
      rw [h4, List.drop_append, ih ws]

theorem bytesToWords_cons4 (X Y : List Nat) (hX : X.length = 4) :
    bytesToWords (X ++ Y) = fromLe4 X :: bytesToWords Y := by
  match X, hX with
  | [a, b, c, d], _ => rfl

theorem bytesToWords_wordsToBytes (W : List Nat) (hW : ∀ w ∈ W, w < 2 ^ 32) :
    bytesToWords (wordsToBytes W) = W := by
  induction W with
  | nil => rfl
  | cons w ws ih =>
    show bytesToWords (toLe4 w ++ wordsToBytes ws) = w :: ws
    rw [bytesToWords_cons4 _ _ (length_toLe4 w), fromLe4_toLe4 w (hW w (by simp)),
      ih (fun x hx => hW x (by simp [hx]))]

theorem wordsToBytes_bytesToWords : ∀ (k : Nat) (D : List Nat), D.length = 4 * k →
    (∀ b ∈ D, b < 256) → wordsToBytes (bytesToWords D) = D := by
  intro k
  induction k with
  | zero =>
    intro D hD _
    have hnil : D = [] := List.length_eq_zero.mp (by omega)
    subst hnil
    rfl
  | succ k ih =>
    intro D hD hb
    rcases D with _ | ⟨b0, D⟩
    · simp at hD
    rcases D with _ | ⟨b1, D⟩
    · simp at hD; omega
    rcases D with _ | ⟨b2, D⟩
    · simp at hD; omega
    rcases D with _ | ⟨b3, rest⟩
    · simp at hD; omega
    show toLe4 (fromLe4 [b0, b1, b2, b3]) ++ wordsToBytes (bytesToWords rest) = _
    rw [toLe4_fromLe4 b0 b1 b2 b3 (hb b0 (by simp)) (hb b1 (by simp)) (hb b2 (by simp))
      (hb b3 (by simp)),
      ih rest (by simp at hD; omega) (fun x hx => hb x (by simp [hx]))]
    rfl

theorem bytesToWords_append4 : ∀ (k : Nat) (X Y : List Nat), X.length = 4 * k →
    bytesToWords (X ++ Y) = bytesToWords X ++ bytesToWords Y := by
  intro k
  induction k with
  | zero =>
    intro X Y hX
    have hnil : X = [] := List.length_eq_zero.mp (by omega)
    subst hnil
    rfl
  | succ k ih =>
    intro X Y hX
    rcases X with _ | ⟨b0, X⟩
    · simp at hX
    rcases X with _ | ⟨b1, X⟩
    · simp at hX; omega
    rcases X with _ | ⟨b2, X⟩
    · simp at hX; omega
    rcases X with _ | ⟨b3, rest⟩
    · simp at hX; omega
    show fromLe4 [b0, b1, b2, b3] :: bytesToWords (rest ++ Y) =
      (fromLe4 [b0, b1, b2, b3] :: bytesToWords rest) ++ bytesToWords Y
    rw [ih rest Y (by simp at hX; omega)]
    rfl

theorem headI_drop (A : List Nat) (q : Nat) : (A.drop q).headI = A.getD q 0 := by
  induction A generalizing q with
  | nil => cases q <;> rfl
  | cons a as ih =>
    cases q with
    | zero => rfl
    | succ q => exact ih q

namespace LeW

theorem fullChunks_copy_spec : ∀ (k : Nat) (w : LeW) (data : List Nat), 4 * k ≤ data.length →
    fullChunks .copy k w data =
      ({ w with
          done := w.done ++ bytesToWords (data.take (4 * k))
          buffer := w.buffer.drop k }, data.drop (4 * k)) := by
  intro k
  induction k with
  | zero =>
    intro w data _
    simp [fullChunks, bytesToWords]
  | succ k ih =>
    intro w data hlen
    have h4 : 4 ≤ data.length := by omega
    have htk4 : (data.take 4).length = 4 := by simp [List.length_take]; omega
    show fullChunks .copy k (commitWord .copy w (fromLe4 (data.take 4))) (data.drop 4) = _
    rw [ih (commitWord .copy w (fromLe4 (data.take 4))) (data.drop 4)
      (by rw [List.length_drop]; omega)]
    have hsplit : data.take (4 * (k + 1)) = data.take 4 ++ (data.drop 4).take (4 * k) := by
      rw [show 4 * (k + 1) = 4 + 4 * k from by ring, List.take_add]
    have hbw : bytesToWords (data.take (4 * (k + 1))) =
        fromLe4 (data.take 4) :: bytesToWords ((data.drop 4).take (4 * k)) := by
      rw [hsplit, bytesToWords_cons4 _ _ htk4]
    refine Prod.ext ?_ ?_
    · show ({ w with
        done := (w.done ++ [fromLe4 (data.take 4)]) ++ bytesToWords ((data.drop 4).take (4 * k))
        buffer := (w.buffer.drop 1).drop k } : LeW) = _
      rw [hbw, List.append_assoc, List.drop_drop, Nat.add_comm 1 k]
      rfl
    · show (data.drop 4).drop (4 * k) = data.drop (4 * (k + 1))
      rw [List.drop_drop]
      congr 1
      ring

/-- The state of a copy-flavour word-slice writer that started fresh over
word array `A` and has absorbed exactly the byte stream `D` through
`write_bytes` calls: the committed prefix is the whole words of `D`, the
view has advanced past them, and a non-empty partial word holds the tail
bytes of `D` followed by the original bytes of the word being overwritten
(the copy writer's priming rule). -/
def WInv (A D : List Nat) (w : LeW) : Prop :=
  w.done = bytesToWords (D.take (4 * (D.length / 4))) ∧
  w.buffer = A.drop (D.length / 4) ∧
  w.partial_filled = D.length % 4 ∧
  w.partial_block.length = 4 ∧
  (D.length % 4 ≠ 0 → w.partial_block =
    D.drop (4 * (D.length / 4)) ++ (toLe4 (A.getD (D.length / 4) 0)).drop (D.length % 4))

theorem new_WInv (A : List Nat) : WInv A [] (new A) := by
  refine ⟨rfl, rfl, rfl, rfl, fun h => absurd rfl h⟩


theorem wbTail_copy_WInv (A E d1 : List Nat) (w1 : LeW) (hInv : WInv A E w1)
    (hr0 : E.length % 4 = 0) (_hcap : E.length + d1.length ≤ 4 * A.length) :
    WInv A (E ++ d1) (wbTail .copy w1 d1) := by
  obtain ⟨hdone, hbuf, hpf, hpblen, _⟩ := hInv
  have hla : (E ++ d1).length = E.length + d1.length := List.length_append E d1
  have h4k : 4 * (d1.length / 4) ≤ d1.length := by omega
  have hEall : E.take (4 * (E.length / 4)) = E := List.take_of_length_le (by omega)
  have hq' : (E ++ d1).length / 4 = E.length / 4 + d1.length / 4 := by omega
  have hr' : (E ++ d1).length % 4 = d1.length % 4 := by omega
  have h4q : 4 * ((E ++ d1).length / 4) = E.length + 4 * (d1.length / 4) := by omega
  have hdone' : w1.done ++ bytesToWords (d1.take (4 * (d1.length / 4))) =
      bytesToWords ((E ++ d1).take (4 * ((E ++ d1).length / 4))) := by
    rw [hdone, hEall, h4q, List.take_append, bytesToWords_append4 (E.length / 4) E _ (by omega)]
  have hdrop' : (E ++ d1).drop (4 * ((E ++ d1).length / 4)) =
      d1.drop (4 * (d1.length / 4)) := by
    rw [h4q, List.drop_append]
  have hwb : wbTail .copy w1 d1 =
      (if (d1.drop (4 * (d1.length / 4))).isEmpty then
        ({ w1 with
            done := w1.done ++ bytesToWords (d1.take (4 * (d1.length / 4)))
            buffer := w1.buffer.drop (d1.length / 4) } : LeW)
      else
        { done := w1.done ++ bytesToWords (d1.take (4 * (d1.length / 4)))
          buffer := w1.buffer.drop (d1.length / 4)
          partial_block := setBytes (toLe4 (w1.buffer.drop (d1.length / 4)).headI) 0
            (d1.drop (4 * (d1.length / 4)))
          partial_filled := (d1.drop (4 * (d1.length / 4))).length }) := by
    unfold wbTail
    rw [fullChunks_copy_spec (d1.length / 4) w1 d1 h4k]
    rfl
  rw [hwb]
  by_cases hrem : (d1.drop (4 * (d1.length / 4))).isEmpty
  · rw [if_pos hrem]
    have hlen0 : d1.length - 4 * (d1.length / 4) = 0 := by
      have h1 := congrArg List.length (List.isEmpty_iff.mp hrem)
      rw [List.length_drop] at h1
      simpa using h1
    refine ⟨hdone', ?_, ?_, hpblen, ?_⟩
    · show w1.buffer.drop (d1.length / 4) = A.drop ((E ++ d1).length / 4)
      rw [hbuf, List.drop_drop, hq']
    · show w1.partial_filled = (E ++ d1).length % 4
      omega
    · intro hne
      exfalso
      omega
  · rw [if_neg hrem]
    have hd1r : d1.length % 4 ≠ 0 := by
      intro h0
      have hfull : 4 * (d1.length / 4) = d1.length := by omega
      exact hrem (by rw [hfull, List.drop_length]; rfl)
    refine ⟨hdone', ?_, ?_, ?_, ?_⟩
    · show w1.buffer.drop (d1.length / 4) = A.drop ((E ++ d1).length / 4)
      rw [hbuf, List.drop_drop, hq']
    · show (d1.drop (4 * (d1.length / 4))).length = (E ++ d1).length % 4
      rw [List.length_drop]
      omega
    · show (setBytes (toLe4 (w1.buffer.drop (d1.length / 4)).headI) 0
        (d1.drop (4 * (d1.length / 4)))).length = 4
      rw [length_setBytes _ _ _ (by rw [length_toLe4, List.length_drop]; omega), length_toLe4]
    · intro _
      show setBytes (toLe4 (w1.buffer.drop (d1.length / 4)).headI) 0
          (d1.drop (4 * (d1.length / 4))) = _
      rw [hbuf, List.drop_drop, headI_drop]
      simp only [setBytes, List.take_zero, List.nil_append, Nat.zero_add, List.length_drop]
      rw [hdrop', hq', hr']
      have hij : d1.length - 4 * (d1.length / 4) = d1.length % 4 := by omega
      rw [hij]

theorem bytesToWords_len4 (X : List Nat) (hX : X.length = 4) :
    bytesToWords X = [fromLe4 X] := by
  have h := bytesToWords_cons4 X [] hX
  rw [List.append_nil] at h
  rw [h]
  rfl

/-- One `write_bytes` call on a copy-flavour word-slice writer preserves the
absorption invariant and succeeds, provided the data fits the remaining
capacity. -/
theorem write_bytes_copy_WInv (A D d : List Nat) (w : LeW) (hInv : WInv A D w)
    (hcap : D.length + d.length ≤ 4 * A.length) :
    WInv A (D ++ d) (write_bytes .copy w d).1 ∧
      (write_bytes .copy w d).2 = Except.ok () := by
  obtain ⟨hdone, hbuf, hpf, hpblen, hpb⟩ := hInv
  have hqA : D.length / 4 ≤ A.length := by omega
  have hcapval : w.capacity = 4 * A.length - D.length := by
    show w.buffer.length * 4 - w.partial_filled = _
    rw [hbuf, hpf, List.length_drop]
    omega
  have hchk : check_write_size d.length w.capacity = Except.ok () := by
    rw [hcapval]
    unfold check_write_size
    rw [if_pos (by omega)]
  have hwbeq : write_bytes .copy w d =
      (wbTail .copy (if w.partial_filled ≠ 0 then wbTopUp .copy w d else (w, d)).1
        (if w.partial_filled ≠ 0 then wbTopUp .copy w d else (w, d)).2, Except.ok ()) := by
    unfold write_bytes
    rw [hchk]
  rw [hwbeq]
  refine ⟨?_, rfl⟩
  by_cases hp : w.partial_filled ≠ 0
  · rw [if_pos hp]
    have hr : D.length % 4 ≠ 0 := by rw [← hpf]; exact hp
    have hpbc := hpb hr
    have hXlen : (D.drop (4 * (D.length / 4))).length = D.length % 4 := by
      rw [List.length_drop]; omega
    by_cases hsmall : d.length < 4 - D.length % 4
    · -- the data fits inside the partial scratch word, which stays partial
      have haddA : min d.length (4 - w.partial_filled) = d.length := by
        rw [hpf]; omega
      have hne4 : ¬ (w.partial_filled + d.length = 4) := by
        rw [hpf]; omega
      have htupA : wbTopUp .copy w d =
          ({ w with
              partial_filled := w.partial_filled + d.length
              partial_block := setBytes w.partial_block w.partial_filled d }, []) := by
        simp only [wbTopUp]
        rw [haddA, List.take_length, List.drop_length, if_neg hne4]
      have htail : wbTail .copy ({ w with
          partial_filled := w.partial_filled + d.length
          partial_block := setBytes w.partial_block w.partial_filled d }) [] =
          { w with
            partial_filled := w.partial_filled + d.length
            partial_block := setBytes w.partial_block w.partial_filled d } := by
        simp [wbTail, fullChunks]
      rw [htupA]
      simp only []
      rw [htail]
      have hlen2 : (D ++ d).length = D.length + d.length := List.length_append D d
      have hq2 : (D ++ d).length / 4 = D.length / 4 := by omega
      have hr2 : (D ++ d).length % 4 = D.length % 4 + d.length := by omega
      refine ⟨?_, ?_, ?_, ?_, ?_⟩
      · show w.done = bytesToWords ((D ++ d).take (4 * ((D ++ d).length / 4)))
        rw [hq2, List.take_append_eq_append_take,
          show 4 * (D.length / 4) - D.length = 0 from by omega]
        simp only [List.take_zero, List.append_nil]
        exact hdone
      · show w.buffer = A.drop ((D ++ d).length / 4)
        rw [hq2]; exact hbuf
      · show w.partial_filled + d.length = (D ++ d).length % 4
        rw [hpf]; omega
      · show (setBytes w.partial_block w.partial_filled d).length = 4
        rw [length_setBytes _ _ _ (by rw [hpf, hpblen]; omega), hpblen]
      · intro _
        have hsb : setBytes w.partial_block w.partial_filled d =
            D.drop (4 * (D.length / 4)) ++ d ++
              (toLe4 (A.getD (D.length / 4) 0)).drop (D.length % 4 + d.length) := by
          unfold setBytes
          rw [hpf, hpbc, List.take_append_eq_append_take, List.take_of_length_le hXlen.le,
            show D.length % 4 - (D.drop (4 * (D.length / 4))).length = 0 from by omega]
          simp only [List.take_zero, List.append_nil]
          rw [List.drop_append_eq_append_drop,
            List.drop_eq_nil_of_le (show (D.drop (4 * (D.length / 4))).length ≤
              D.length % 4 + d.length from by rw [hXlen]; omega),
            show D.length % 4 + d.length - (D.drop (4 * (D.length / 4))).length = d.length
              from by omega]
          rw [List.drop_drop]
          simp only [List.nil_append]
        show setBytes w.partial_block w.partial_filled d = _
        rw [hq2, hr2, hsb, List.drop_append_eq_append_drop,
          show 4 * (D.length / 4) - D.length = 0 from by omega]
        simp only [List.drop_zero, List.append_assoc]
    · -- the partial scratch word fills up and is committed
      have haddB : min d.length (4 - w.partial_filled) = 4 - D.length % 4 := by
        rw [hpf]; omega
      have heq4 : w.partial_filled + (4 - D.length % 4) = 4 := by
        rw [hpf]; omega
      have htupB : wbTopUp .copy w d =
          ({ done := w.done ++
                [fromLe4 (setBytes w.partial_block w.partial_filled
                  (d.take (4 - D.length % 4)))]
             buffer := w.buffer.drop 1
             partial_block := setBytes w.partial_block w.partial_filled
               (d.take (4 - D.length % 4))
             partial_filled := 0 }, d.drop (4 - D.length % 4)) := by
        simp only [wbTopUp]
        rw [haddB, if_pos heq4]
        rfl
      rw [htupB]
      simp only []
      have htklen : (d.take (4 - D.length % 4)).length = 4 - D.length % 4 := by
        rw [List.length_take]; omega
      have hpbF : setBytes w.partial_block w.partial_filled (d.take (4 - D.length % 4)) =
          D.drop (4 * (D.length / 4)) ++ d.take (4 - D.length % 4) := by
        unfold setBytes
        rw [hpf, hpbc, List.take_append_eq_append_take, List.take_of_length_le hXlen.le,
          show D.length % 4 - (D.drop (4 * (D.length / 4))).length = 0 from by omega]
        simp only [List.take_zero, List.append_nil]
        rw [List.drop_append_eq_append_drop,
          List.drop_eq_nil_of_le (show (D.drop (4 * (D.length / 4))).length ≤
            D.length % 4 + (d.take (4 - D.length % 4)).length from by
              rw [hXlen, htklen]; omega),
          List.drop_eq_nil_of_le (show
            ((toLe4 (A.getD (D.length / 4) 0)).drop (D.length % 4)).length ≤
              D.length % 4 + (d.take (4 - D.length % 4)).length -
                (D.drop (4 * (D.length / 4))).length from by
              rw [List.length_drop, length_toLe4, hXlen, htklen]; omega)]
        simp only [List.append_nil]
      have hElen : (D ++ d.take (4 - D.length % 4)).length = 4 * (D.length / 4 + 1) := by
        rw [List.length_append, htklen]; omega
      have hInv2 : WInv A (D ++ d.take (4 - D.length % 4))
          ({ done := w.done ++
                [fromLe4 (setBytes w.partial_block w.partial_filled
                  (d.take (4 - D.length % 4)))]
             buffer := w.buffer.drop 1
             partial_block := setBytes w.partial_block w.partial_filled
               (d.take (4 - D.length % 4))
             partial_filled := 0 } : LeW) := by
        have hq3 : (D ++ d.take (4 - D.length % 4)).length / 4 = D.length / 4 + 1 := by
          rw [hElen]; omega
        have hr3 : (D ++ d.take (4 - D.length % 4)).length % 4 = 0 := by
          rw [hElen]; omega
        refine ⟨?_, ?_, ?_, ?_, ?_⟩
        · show w.done ++ [fromLe4 _] = _
          rw [hq3, show 4 * (D.length / 4 + 1) = (D ++ d.take (4 - D.length % 4)).length
              from hElen.symm, List.take_length]
          rw [show D ++ d.take (4 - D.length % 4) =
              D.take (4 * (D.length / 4)) ++ (D.drop (4 * (D.length / 4)) ++
                d.take (4 - D.length % 4))
            from by rw [← List.append_assoc, List.take_append_drop]]
          rw [bytesToWords_append4 (D.length / 4) _ _ (by rw [List.length_take]; omega),
            bytesToWords_len4
              (D.drop (4 * (D.length / 4)) ++ d.take (4 - D.length % 4))
              (by rw [List.length_append, hXlen, htklen]; omega),
            hdone, hpbF]
        · show w.buffer.drop 1 = _
          rw [hq3, hbuf, List.drop_drop]
        · show (0 : Nat) = _
          rw [hr3]
        · show (setBytes w.partial_block w.partial_filled
              (d.take (4 - D.length % 4))).length = 4
          rw [length_setBytes _ _ _ (by rw [hpf, hpblen, htklen]; omega), hpblen]
        · intro hne
          exact absurd hr3 hne
      have hfin := wbTail_copy_WInv A (D ++ d.take (4 - D.length % 4))
        (d.drop (4 - D.length % 4)) _ hInv2
        (by rw [hElen]; omega)
        (by rw [hElen, List.length_drop]; omega)
      rw [show (D ++ d.take (4 - D.length % 4)) ++ d.drop (4 - D.length % 4) = D ++ d
          from by rw [List.append_assoc, List.take_append_drop]] at hfin
      exact hfin
  · rw [if_neg hp]
    have hp0 : w.partial_filled = 0 := not_ne_iff.mp hp
    exact wbTail_copy_WInv A D d w ⟨hdone, hbuf, hpf, hpblen, hpb⟩
      (by rw [← hpf]; exact hp0) hcap

theorem toLe4_mem_lt (x : Nat) : ∀ b ∈ toLe4 x, b < 256 := by
  intro b hb
  simp only [toLe4, List.mem_cons, List.not_mem_nil, or_false] at hb
  rcases hb with h | h | h | h <;> (rw [h]; exact Nat.mod_lt _ (by omega))

theorem toLe4_fromLe4_of (X : List Nat) (hX : X.length = 4) (hb : ∀ b ∈ X, b < 256) :
    toLe4 (fromLe4 X) = X := by
  match X, hX with
  | [a, b, c, e], _ =>
    exact toLe4_fromLe4 a b c e (hb a (by simp)) (hb b (by simp)) (hb c (by simp))
      (hb e (by simp))

theorem drop_eq_getD_cons (A : List Nat) (q : Nat) (h : q < A.length) :
    A.drop q = A.getD q 0 :: A.drop (q + 1) := by
  rw [List.drop_eq_getElem_cons h]
  simp [List.getD, List.getElem?_eq_getElem h]

/-- After `finish`, the byte image of the backing slice of a copy-flavour
word-slice writer that has absorbed the byte stream `D` over initial array
`A` is `D` followed by the untouched original tail bytes. -/
theorem finish_copy_backing (A D : List Nat) (w : LeW) (hInv : WInv A D w)
    (hb : ∀ b ∈ D, b < 256) (hlen : D.length ≤ 4 * A.length) :
    wordsToBytes (finish .copy w).backing = D ++ (wordsToBytes A).drop D.length := by
  obtain ⟨hdone, hbuf, hpf, hpblen, hpb⟩ := hInv
  have hdonebytes : wordsToBytes w.done = D.take (4 * (D.length / 4)) := by
    rw [hdone, wordsToBytes_bytesToWords (D.length / 4) _ (by rw [List.length_take]; omega)
      (fun x hx => hb x (List.mem_of_mem_take hx))]
  by_cases hr : D.length % 4 ≠ 0
  · have hq : D.length / 4 < A.length := by omega
    have hfin : finish .copy w = write_partial_block .copy w := by
      unfold finish
      rw [if_pos (by rw [hpf]; exact hr)]
    rw [hfin]
    show wordsToBytes ((w.done ++ [fromLe4 w.partial_block]) ++ w.buffer.drop 1) = _
    rw [hpb hr, hbuf, List.drop_drop, wordsToBytes_append, wordsToBytes_append]
    show _ ++ (toLe4 (fromLe4 _) ++ []) ++ _ = _
    rw [hdonebytes, List.append_nil,
      toLe4_fromLe4_of _
        (by rw [List.length_append, List.length_drop, List.length_drop, length_toLe4]; omega)
        (by
          intro b hbm
          rcases List.mem_append.mp hbm with h | h
          · exact hb b (List.mem_of_mem_drop h)
          · exact toLe4_mem_lt _ b (List.mem_of_mem_drop h))]
    have htail2 : (wordsToBytes A).drop D.length =
        (toLe4 (A.getD (D.length / 4) 0)).drop (D.length % 4) ++
          wordsToBytes (A.drop (D.length / 4 + 1)) := by
      have h1 : (wordsToBytes A).drop D.length =
          ((wordsToBytes A).drop (4 * (D.length / 4))).drop (D.length % 4) := by
        rw [List.drop_drop]
        congr 1
        omega
      rw [h1, wordsToBytes_drop, drop_eq_getD_cons A (D.length / 4) hq]
      show (toLe4 (A.getD (D.length / 4) 0) ++
        wordsToBytes (A.drop (D.length / 4 + 1))).drop (D.length % 4) = _
      rw [List.drop_append_eq_append_drop, length_toLe4,
        show D.length % 4 - 4 = 0 from by omega, List.drop_zero]
    rw [htail2]
    simp only [List.append_assoc]
    conv_lhs => rw [← List.append_assoc]
    rw [List.take_append_drop]
  · have hr0 : D.length % 4 = 0 := not_ne_iff.mp hr
    have hfin : finish .copy w = w := by
      unfold finish
      rw [if_neg (by rw [hpf]; omega)]
    rw [hfin]
    show wordsToBytes (w.done ++ w.buffer) = _
    rw [wordsToBytes_append, hdonebytes, hbuf, ← wordsToBytes_drop,
      show 4 * (D.length / 4) = D.length from by omega, List.take_length]

end LeW

/-- **C8** — Word-slice copy-writer round trip: writing the little-endian
byte serialization of any word array `W` through a `LeU32SliceWriter`
(`write_bytes`, then `finish`) leaves the backing array exactly `W`; and in
general, for any data `D` fitting an initial array `A`, after `finish` the
backing array's byte image is exactly `D` followed by the original bytes of
`A` beyond position `|D|` — unwritten tail bytes of a partially written
word preserve that word's previous value. -/
theorem le_slice_copy_writer_roundtrip :
    (∀ (W : List Nat), (∀ x ∈ W, x < 2 ^ 32) →
      (LeW.finish .copy (LeW.write_bytes .copy (LeW.new W) (wordsToBytes W)).1).backing = W) ∧
    (∀ (A D : List Nat), (∀ b ∈ D, b < 256) → D.length ≤ 4 * A.length →
      wordsToBytes (LeW.finish .copy (LeW.write_bytes .copy (LeW.new A) D).1).backing =
        D ++ (wordsToBytes A).drop D.length) := by
  constructor
  · intro W hW
    have hcap : ([] : List Nat).length + (wordsToBytes W).length ≤ 4 * W.length := by
      rw [wordsToBytes_length]
      simp
    have h := LeW.write_bytes_copy_WInv W [] (wordsToBytes W) (LeW.new W) (LeW.new_WInv W) hcap
    rw [List.nil_append] at h
    obtain ⟨⟨hdone, hbuf, hpf, hpblen, hpb⟩, _⟩ := h
    have hDlen : (wordsToBytes W).length = 4 * W.length := wordsToBytes_length W
    have hfin : LeW.finish .copy (LeW.write_bytes .copy (LeW.new W) (wordsToBytes W)).1 =
        (LeW.write_bytes .copy (LeW.new W) (wordsToBytes W)).1 := by
      unfold LeW.finish
      rw [if_neg (by rw [hpf, hDlen]; omega)]
    rw [hfin]
    show (LeW.write_bytes .copy (LeW.new W) (wordsToBytes W)).1.done ++
      (LeW.write_bytes .copy (LeW.new W) (wordsToBytes W)).1.buffer = W
    rw [hdone, hbuf, hDlen, show 4 * W.length / 4 = W.length from by omega,
      show (4 : Nat) * W.length = (wordsToBytes W).length from hDlen.symm,
      List.take_length, List.drop_length, List.append_nil,
      bytesToWords_wordsToBytes W hW]
  · intro A D hb hlen
    have h := LeW.write_bytes_copy_WInv A [] D (LeW.new A) (LeW.new_WInv A)
      (by simpa using hlen)
    rw [List.nil_append] at h
    exact LeW.finish_copy_backing A D _ h.1 hb hlen

theorem le_slice_copy_writer_roundtrip_witness :
    (LeW.finish .copy (LeW.write_bytes .copy (LeW.new [305419896, 4294967295])
        (wordsToBytes [305419896, 4294967295])).1).backing = [305419896, 4294967295] ∧
    wordsToBytes
        (LeW.finish .copy (LeW.write_bytes .copy (LeW.new [287454020]) [170]).1).backing =
      [170] ++ (wordsToBytes [287454020]).drop 1 :=
  ⟨le_slice_copy_writer_roundtrip.1 [305419896, 4294967295] (by decide),
   le_slice_copy_writer_roundtrip.2 [287454020] [170] (by decide) (by decide)⟩
